import Mathlib

/-
Verification development for the lightbeam streaming JIT backend and its
microwasm converter.  The definitions below are a shallow embedding of
src/backend.rs and src/microwasm.rs: machine integers become Nat/Int,
the u16 register bitmask becomes a Nat kept below 2^16, panicking code
paths become an explicit error monad, and the emitted x86-64 instructions
become an inductive abstract instruction type.
-/

set_option maxHeartbeats 1000000

deriving instance DecidableEq for Except

namespace Backend

/-- The type GPR = u8 of general-purpose register numbers. -/
abbrev GPR := Nat

def RAX : GPR := 0
def RCX : GPR := 1
def RDX : GPR := 2
def RBX : GPR := 3
def RSP : GPR := 4
def RBP : GPR := 5
def RSI : GPR := 6
def RDI : GPR := 7
def R8 : GPR := 8
def R9 : GPR := 9
def R10 : GPR := 10
def R11 : GPR := 11

/-- Size of a pointer on the target in bytes (const WORD_SIZE: u32 = 8). -/
def WORD_SIZE : Nat := 8

/-- const ARGS_IN_GPRS: the six System V argument registers in positional order. -/
def ARGS_IN_GPRS : List GPR := [RDI, RSI, RDX, RCX, R8, R9]

/-- const SCRATCH_REGS: the scratch registers handed to the register pool. -/
def SCRATCH_REGS : List GPR := [R10, R11]

/-- Abort conditions: each corresponds to a panicking assertion or a fallible
lookup in the source. -/
inductive Err
  | noFreeGprs
  | releasedFree
  | stackEmpty
  | depthUnderflow
  | multipleReturn
  | badFuncIndex
deriving DecidableEq

/-- GPRs.is_free: (bits & (1 << gpr)) != 0. -/
def isFreeBits (bits : Nat) (gpr : GPR) : Bool :=
  bits &&& (1 <<< gpr) != 0

/-- GPRs.mark_used: bits &= !(1 << gpr); the complement is taken in u16. -/
def markUsed (bits : Nat) (gpr : GPR) : Nat :=
  bits &&& (65535 ^^^ (1 <<< gpr))

/-- GPRs.release: asserts the register is not already free, then sets its bit. -/
def releaseBits (bits : Nat) (gpr : GPR) : Except Err Nat :=
  if isFreeBits bits gpr then .error .releasedFree
  else .ok (bits ||| (1 <<< gpr))

/-- GPRs.take: the index of the lowest set bit (trailing_zeros), asserted to be
below 16, which is then marked used. -/
def takeBits (bits : Nat) : Except Err (GPR × Nat) :=
  match (List.range 16).find? (fun i => bits.testBit i) with
  | none => .error .noFreeGprs
  | some gpr => .ok (gpr, markUsed bits gpr)

/-- GPRs.free_count: count_ones of the 16-bit mask. -/
def freeCount (bits : Nat) : Nat :=
  ((List.range 16).filter (fun i => bits.testBit i)).length

/-- Registers::new: start from the empty mask and release every scratch register
into the pool. -/
def newRegisters : Nat :=
  SCRATCH_REGS.foldl (fun bits gpr => bits ||| (1 <<< gpr)) 0

/-- ValueLocation: where a value lives.  Stack offsets are relative to the base
of the locals frame and must pass through adjusted_offset before a read. -/
inductive ValueLocation
  | Reg (gpr : GPR)
  | Stack (offset : Int)
deriving DecidableEq

/-- StackValue: one entry of the abstract operand stack. -/
inductive StackValue
  | Local (idx : Nat)
  | Temp (gpr : GPR)
  | Pop
deriving DecidableEq

/-- Value: an operand popped off the abstract stack and held in flight. -/
inductive Value
  | Local (idx : Nat)
  | Temp (gpr : GPR)
deriving DecidableEq

/-- Abstract x86-64 instructions, one constructor per dynasm! pattern emitted by
the backend. -/
inductive Inst
  | pushR (gpr : GPR)
  | popR (gpr : GPR)
  | movRR (dst src : GPR)
  | movRM (dst : GPR) (offset : Int)
  | movMR (offset : Int) (src : GPR)
  | movImm (dst : GPR) (imm : Int)
  | addRR (dst src : GPR)
  | addRM (dst : GPR) (offset : Int)
  | subRR (dst src : GPR)
  | subRM (dst : GPR) (offset : Int)
  | andRR (dst src : GPR)
  | andRM (dst : GPR) (offset : Int)
  | orRR (dst src : GPR)
  | orRM (dst : GPR) (offset : Int)
  | xorRR (dst src : GPR)
  | xorRM (dst : GPR) (offset : Int)
  | imulRR (dst src : GPR)
  | imulRM (dst : GPR) (offset : Int)
  | zeroR (gpr : GPR)
  | cmpRR (l r : GPR)
  | cmpRM (l : GPR) (offset : Int)
  | sete (gpr : GPR)
  | testRR (gpr : GPR)
  | je (label : Nat)
  | jmp (label : Nat)
  | callLabel (label : Nat)
  | subRspImm (size : Int)
  | addRspImm (size : Int)
  | pushRbp
  | movRbpRsp
  | ud2
deriving DecidableEq

/-- The per-function context: register pool bits, abstract operand stack (head
is the top), locals table, transient stack depth in words, and the dynamic
label of every function of the session. -/
structure Context where
  regs : Nat
  stack : List StackValue
  locals : List ValueLocation
  depth : Nat
  funcStarts : List Nat
deriving DecidableEq

/-- local_location: entries present in the table are returned as stored; a
missing index falls back to Stack((index.saturating_sub(6)) * WORD_SIZE). -/
def local_location (locals : List ValueLocation) (index : Nat) : ValueLocation :=
  match locals.get? index with
  | some loc => loc
  | none => .Stack (((index - ARGS_IN_GPRS.length) * WORD_SIZE : Nat) : Int)

/-- Value::location. -/
def Value.location (v : Value) (locals : List ValueLocation) : ValueLocation :=
  match v with
  | .Local loc => local_location locals loc
  | .Temp reg => .Reg reg

/-- StackValue::location; Pop entries map to nothing. -/
def StackValue.location (sv : StackValue) (locals : List ValueLocation) :
    Option ValueLocation :=
  match sv with
  | .Local loc => some (local_location locals loc)
  | .Temp reg => some (.Reg reg)
  | .Pop => none

/-- adjusted_offset: stack_depth_words * WORD_SIZE + offset. -/
def adjusted_offset (ctx : Context) (offset : Int) : Int :=
  ((ctx.depth * WORD_SIZE : Nat) : Int) + offset

/-- push_return_value: record Temp(RAX) on the operand stack. -/
def push_return_value (ctx : Context) : Context :=
  { ctx with stack := .Temp RAX :: ctx.stack }

/-- push_i32: a Temp is kept in its register when the pool still has a free
scratch register; otherwise it is pushed on the machine stack, its register is
released and the entry is recorded as Pop. -/
def push_i32 (ctx : Context) (value : Value) : Except Err (Context × List Inst) :=
  match value with
  | .Local loc => .ok ({ ctx with stack := .Local loc :: ctx.stack }, [])
  | .Temp gpr =>
    if freeCount ctx.regs ≥ 1 then
      .ok ({ ctx with stack := .Temp gpr :: ctx.stack }, [])
    else do
      let bits ← releaseBits ctx.regs gpr
      .ok ({ ctx with stack := .Pop :: ctx.stack, depth := ctx.depth + 1, regs := bits },
        [.pushR gpr])

/-- pop_i32: Local and Temp entries pop directly; a Pop entry frees one word of
depth, takes a fresh scratch register and pops the machine stack into it. -/
def pop_i32 (ctx : Context) : Except Err (Value × Context × List Inst) :=
  match ctx.stack with
  | [] => .error .stackEmpty
  | sv :: rest =>
    match sv with
    | .Local loc => .ok (.Local loc, { ctx with stack := rest }, [])
    | .Temp reg => .ok (.Temp reg, { ctx with stack := rest }, [])
    | .Pop =>
      if ctx.depth = 0 then .error .depthUnderflow
      else do
        let (gpr, bits) ← takeBits ctx.regs
        .ok (.Temp gpr, { ctx with stack := rest, depth := ctx.depth - 1, regs := bits },
          [.popR gpr])

/-- free_val: release the register behind a Temp; Locals own nothing. -/
def free_val (ctx : Context) (val : Value) : Except Err Context :=
  match val with
  | .Temp reg => do
    let bits ← releaseBits ctx.regs reg
    .ok { ctx with regs := bits }
  | .Local _ => .ok ctx

/-- copy_value: move a value between locations, using a scratch register for a
memory-to-memory copy; a no-op when source and destination coincide. -/
def copy_value (ctx : Context) (src dst : ValueLocation) :
    Except Err (Context × List Inst) :=
  match src, dst with
  | .Stack in_offset, .Stack out_offset =>
    let in_offset := adjusted_offset ctx in_offset
    let out_offset := adjusted_offset ctx out_offset
    if in_offset ≠ out_offset then do
      let (gpr, bits) ← takeBits ctx.regs
      let bits ← releaseBits bits gpr
      .ok ({ ctx with regs := bits }, [.movRM gpr in_offset, .movMR out_offset gpr])
    else .ok (ctx, [])
  | .Reg in_reg, .Stack out_offset =>
    .ok (ctx, [.movMR (adjusted_offset ctx out_offset) in_reg])
  | .Stack in_offset, .Reg out_reg =>
    .ok (ctx, [.movRM out_reg (adjusted_offset ctx in_offset)])
  | .Reg in_reg, .Reg out_reg =>
    if in_reg ≠ out_reg then .ok (ctx, [.movRR out_reg in_reg])
    else .ok (ctx, [])

/-- pop_i32_into: pop a value, copy it to the destination, free it. -/
def pop_i32_into (ctx : Context) (dst : ValueLocation) :
    Except Err (Context × List Inst) := do
  let (val, ctx, is0) ← pop_i32 ctx
  let val_loc := val.location ctx.locals
  let (ctx, is1) ← copy_value ctx val_loc dst
  let ctx ← free_val ctx val
  .ok (ctx, is0 ++ is1)

/-- into_reg: keep a register operand as is; load a stack operand into a fresh
scratch register. -/
def into_reg (ctx : Context) (val : Value) : Except Err (GPR × Context × List Inst) :=
  match val.location ctx.locals with
  | .Stack offset => do
    let offset := adjusted_offset ctx offset
    let (scratch, bits) ← takeBits ctx.regs
    .ok (scratch, { ctx with regs := bits }, [.movRM scratch offset])
  | .Reg reg => .ok (reg, ctx, [])

/-- into_temp_reg: copy a Local into a fresh scratch register so the local is
not clobbered; a Temp is already owned. -/
def into_temp_reg (ctx : Context) (val : Value) :
    Except Err (GPR × Context × List Inst) :=
  match val with
  | .Local loc => do
    let (scratch, bits) ← takeBits ctx.regs
    let ctx := { ctx with regs := bits }
    match local_location ctx.locals loc with
    | .Stack offset => .ok (scratch, ctx, [.movRM scratch (adjusted_offset ctx offset)])
    | .Reg reg => .ok (scratch, ctx, [.movRR scratch reg])
  | .Temp reg => .ok (reg, ctx, [])

/-- Common shape of i32_add / i32_sub / i32_and / i32_or / i32_xor / i32_mul:
pop two operands, materialize the second into a temp register, combine with the
first used as a register or memory operand, push the temp, free the first. -/
def i32_binop (instRR : GPR → GPR → Inst) (instRM : GPR → Int → Inst)
    (ctx : Context) : Except Err (Context × List Inst) := do
  let (op0, ctx, is0) ← pop_i32 ctx
  let (tmp, ctx, is1) ← pop_i32 ctx
  let (op1, ctx, is2) ← into_temp_reg ctx tmp
  let opInst :=
    match op0.location ctx.locals with
    | .Reg reg => instRR op1 reg
    | .Stack offset => instRM op1 (adjusted_offset ctx offset)
  let ctx := { ctx with stack := .Temp op1 :: ctx.stack }
  let ctx ← free_val ctx op0
  .ok (ctx, is0 ++ is1 ++ is2 ++ [opInst])

def i32_add (ctx : Context) : Except Err (Context × List Inst) :=
  i32_binop .addRR .addRM ctx

def i32_sub (ctx : Context) : Except Err (Context × List Inst) :=
  i32_binop .subRR .subRM ctx

def i32_and (ctx : Context) : Except Err (Context × List Inst) :=
  i32_binop .andRR .andRM ctx

def i32_or (ctx : Context) : Except Err (Context × List Inst) :=
  i32_binop .orRR .orRM ctx

def i32_xor (ctx : Context) : Except Err (Context × List Inst) :=
  i32_binop .xorRR .xorRM ctx

def i32_mul (ctx : Context) : Except Err (Context × List Inst) :=
  i32_binop .imulRR .imulRM ctx

/-- get_local_i32: push a Local descriptor. -/
def get_local_i32 (ctx : Context) (local_idx : Nat) :
    Except Err (Context × List Inst) :=
  push_i32 ctx (.Local local_idx)

/-- set_local_i32: pop a value and copy it into the local's current location. -/
def set_local_i32 (ctx : Context) (local_idx : Nat) :
    Except Err (Context × List Inst) := do
  let (val, ctx, is0) ← pop_i32 ctx
  let val_loc := val.location ctx.locals
  let dst_loc := local_location ctx.locals local_idx
  let (ctx, is1) ← copy_value ctx val_loc dst_loc
  let ctx ← free_val ctx val
  .ok (ctx, is0 ++ is1)

/-- literal_i32: move an immediate into a fresh scratch and push it as a Temp. -/
def literal_i32 (ctx : Context) (imm : Int) : Except Err (Context × List Inst) := do
  let (gpr, bits) ← takeBits ctx.regs
  let ctx := { ctx with regs := bits }
  let (ctx, is1) ← push_i32 ctx (.Temp gpr)
  .ok (ctx, .movImm gpr imm :: is1)

/-- relop_eq_i32: pop right then left, zero a fresh destination, compare and
sete into it, push the destination, free both operands. -/
def relop_eq_i32 (ctx : Context) : Except Err (Context × List Inst) := do
  let (right, ctx, is0) ← pop_i32 ctx
  let (left, ctx, is1) ← pop_i32 ctx
  let (result, bits) ← takeBits ctx.regs
  let ctx := { ctx with regs := bits }
  let (lreg, ctx, is2) ← into_reg ctx left
  let cmpInsts :=
    match right.location ctx.locals with
    | .Stack offset =>
      [Inst.zeroR result, .cmpRM lreg (adjusted_offset ctx offset), .sete result]
    | .Reg rreg => [Inst.zeroR result, .cmpRR lreg rreg, .sete result]
  let (ctx, is3) ← push_i32 ctx (.Temp result)
  let ctx ← free_val ctx left
  let ctx ← free_val ctx right
  .ok (ctx, is0 ++ is1 ++ is2 ++ cmpInsts ++ is3)

/-- CallCleanup record returned by pass_outgoing_args. -/
structure CallCleanup where
  restore_registers : List GPR
  stack_depth : Nat
deriving DecidableEq

/-- Loop body of free_arg_registers: walk the locals table in index order and
spill every local held in an argument register to its stack slot, rewriting
the table entry to the adjusted offset that was just computed. -/
def free_arg_registers_loop (depth : Nat) :
    List ValueLocation → Nat → List ValueLocation × List Inst
  | [], _ => ([], [])
  | loc :: rest, i =>
    let (rest', insts) := free_arg_registers_loop depth rest (i + 1)
    match loc with
    | .Reg reg =>
      if reg ∈ ARGS_IN_GPRS then
        let offset : Int := ((depth * WORD_SIZE : Nat) : Int) + ((i * WORD_SIZE : Nat) : Int)
        (.Stack offset :: rest', .movMR offset reg :: insts)
      else (loc :: rest', insts)
    | _ => (loc :: rest', insts)

/-- free_arg_registers: no-op when the call has no arguments. -/
def free_arg_registers (ctx : Context) (count : Nat) : Context × List Inst :=
  if count = 0 then (ctx, [])
  else
    let (locs, insts) := free_arg_registers_loop ctx.depth ctx.locals 0
    ({ ctx with locals := locs }, insts)

/-- Loop body of free_return_register: walk the operand stack from the bottom
and move every entry located in RAX into a fresh scratch register. -/
def free_return_register_loop (locals : List ValueLocation) (regs : Nat) :
    List StackValue → Except Err (Nat × List StackValue × List Inst)
  | [] => .ok (regs, [], [])
  | sv :: rest => do
    let (regs, rest', insts) ← free_return_register_loop locals regs rest
    match sv.location locals with
    | some (.Reg reg) =>
      if reg = RAX then do
        let (scratch, regs) ← takeBits regs
        .ok (regs, .Temp scratch :: rest', insts ++ [.movRR scratch RAX])
      else .ok (regs, sv :: rest', insts)
    | _ => .ok (regs, sv :: rest', insts)

/-- free_return_register: no-op when the callee returns nothing. -/
def free_return_register (ctx : Context) (count : Nat) :
    Except Err (Context × List Inst) :=
  if count = 0 then .ok (ctx, [])
  else do
    let (regs, stack, insts) ← free_return_register_loop ctx.locals ctx.regs ctx.stack
    .ok ({ ctx with regs := regs, stack := stack }, insts)

/-- save_volatile: push every used caller-saved scratch register and remember
the list in saving order. -/
def save_volatile (ctx : Context) : List GPR × List Inst :=
  let out := SCRATCH_REGS.filter (fun reg => !isFreeBits ctx.regs reg)
  (out, out.map Inst.pushR)

/-- Stack-argument loop of pass_outgoing_args: slots are visited in reverse and
each offset is taken relative to the rsp of that moment. -/
def pass_stack_args (ctx : Context) :
    List Nat → Except Err (Context × List Inst)
  | [] => .ok (ctx, [])
  | stack_slot :: rest => do
    let offset : Int :=
      ((stack_slot * WORD_SIZE : Nat) : Int) - ((ctx.depth * WORD_SIZE : Nat) : Int)
    let (ctx, is0) ← pop_i32_into ctx (.Stack offset)
    let (ctx, is1) ← pass_stack_args ctx rest
    .ok (ctx, is0 ++ is1)

/-- Register-argument loop of pass_outgoing_args: argument registers are
filled right-to-left. -/
def pass_reg_args (ctx : Context) :
    List GPR → Except Err (Context × List Inst)
  | [] => .ok (ctx, [])
  | reg :: rest => do
    let (ctx, is0) ← pop_i32_into ctx (.Reg reg)
    let (ctx, is1) ← pass_reg_args ctx rest
    .ok (ctx, is0 ++ is1)

/-- pass_outgoing_args: save volatiles, reserve the outgoing stack area, pop
stack-passed then register-passed arguments right-to-left. -/
def pass_outgoing_args (ctx : Context) (arity : Nat) :
    Except Err (CallCleanup × Context × List Inst) := do
  let num_stack_args := arity - ARGS_IN_GPRS.length
  let (saved, saveInsts) := save_volatile ctx
  let out : CallCleanup := ⟨saved, num_stack_args⟩
  let (ctx, stackInsts) ←
    if num_stack_args > 0 then do
      let size : Int := ((num_stack_args * WORD_SIZE : Nat) : Int)
      let ctx := { ctx with depth := ctx.depth + num_stack_args }
      let (ctx, is) ← pass_stack_args ctx (List.range num_stack_args).reverse
      pure (ctx, Inst.subRspImm size :: is)
    else pure (ctx, ([] : List Inst))
  let (ctx, regInsts) ←
    pass_reg_args ctx (ARGS_IN_GPRS.take (min arity ARGS_IN_GPRS.length)).reverse
  .ok (out, ctx, saveInsts ++ stackInsts ++ regInsts)

/-- post_call_cleanup: free the outgoing argument area and pop the saved
volatile registers in reverse order of saving.  (The abstract depth counter is
deliberately left exactly as the source leaves it.) -/
def post_call_cleanup (ctx : Context) (cleanup : CallCleanup) : Context × List Inst :=
  let sizeInsts : List Inst :=
    if cleanup.stack_depth > 0 then
      [.addRspImm ((cleanup.stack_depth * WORD_SIZE : Nat) : Int)]
    else []
  (ctx, sizeInsts ++ cleanup.restore_registers.reverse.map Inst.popR)

/-- call_direct: assert single-or-no return, free argument and return
registers, pass outgoing arguments, emit the call, clean up. -/
def call_direct (ctx : Context) (index arg_arity return_arity : Nat) :
    Except Err (Context × List Inst) :=
  if return_arity = 0 ∨ return_arity = 1 then do
    let (ctx, farInsts) := free_arg_registers ctx arg_arity
    let (ctx, frrInsts) ← free_return_register ctx return_arity
    let (cleanup, ctx, poaInsts) ← pass_outgoing_args ctx arg_arity
    match ctx.funcStarts.get? index with
    | none => .error .badFuncIndex
    | some label =>
      let (ctx, cleanInsts) := post_call_cleanup ctx cleanup
      .ok (ctx, farInsts ++ frrInsts ++ poaInsts ++ [.callLabel label] ++ cleanInsts)
  else .error .multipleReturn

/-- start_function: compute the frame size from the declared locals plus the
register-passed arguments rounded up to an even number of slots, populate the
locals table, and emit the prologue. -/
def start_function (ctx : Context) (arguments locals : Nat) : Context × List Inst :=
  let reg_args := ARGS_IN_GPRS.take (min arguments ARGS_IN_GPRS.length)
  let locals := locals + reg_args.length
  let aligned_stack_slots := (locals + 1) &&& 4294967294
  let framesize : Int := ((aligned_stack_slots * WORD_SIZE : Nat) : Int)
  let locs := reg_args.map ValueLocation.Reg ++
    (List.range (arguments - ARGS_IN_GPRS.length)).map
      (fun arg_i => ValueLocation.Stack ((((arg_i + 2) * WORD_SIZE : Nat) : Int) + framesize))
  ({ ctx with locals := locs },
    [Inst.pushRbp, Inst.movRbpRsp] ++ if framesize > 0 then [Inst.subRspImm framesize] else [])

end Backend

namespace Microwasm

/-- Size: 32- or 64-bit. -/
inductive Size
  | s32
  | s64
deriving DecidableEq

/-- SignlessType = Type of signless value types. -/
inductive SignlessType
  | Int (s : Size)
  | Float (s : Size)
deriving DecidableEq

def I32 : SignlessType := .Int .s32
def I64 : SignlessType := .Int .s64
def F32 : SignlessType := .Float .s32
def F64 : SignlessType := .Float .s64

/-- Value: a constant embedded in the instructions; floats carry raw bits. -/
inductive Value
  | I32 (v : Int)
  | I64 (v : Int)
  | F32 (bits : Nat)
  | F64 (bits : Nat)
deriving DecidableEq

/-- Value::default_for_type. -/
def Value.default_for_type : SignlessType → Value
  | .Int .s32 => .I32 0
  | .Int .s64 => .I64 0
  | .Float .s32 => .F32 0
  | .Float .s64 => .F64 0

/-- NameTag: the up-to-three label variants a structured frame owns. -/
inductive NameTag
  | Header
  | Else
  | End
deriving DecidableEq

/-- WasmLabel = (u32, NameTag). -/
abbrev WasmLabel := Nat × NameTag

/-- BrTarget: return from the function or branch to a label. -/
inductive BrTarget
  | Return
  | Label (l : WasmLabel)
deriving DecidableEq

/-- The flat microwasm operators produced by the converter (the subset the
claims exercise). -/
inductive Operator
  | Unreachable
  | Block (label : WasmLabel) (params : List SignlessType)
      (has_backwards_callers : Bool) (num_callers : Option Nat)
  | Label (label : WasmLabel)
  | Br (target : BrTarget)
  | BrIf (then_ else_ : BrTarget)
  | Drop (first last : Nat)
  | Pick (depth : Nat)
  | Swap (depth : Nat)
  | Const (v : Value)
deriving DecidableEq

/-- Operator::end: a block with no backwards callers and unknown caller count. -/
def Operator.end_ (params : List SignlessType) (label : WasmLabel) : Operator :=
  .Block label params false none

/-- Operator::block: a block with a single known caller. -/
def Operator.block (params : List SignlessType) (label : WasmLabel) : Operator :=
  .Block label params false (some 1)

/-- Operator::loop_: a block with backwards callers. -/
def Operator.loop_ (params : List SignlessType) (label : WasmLabel) : Operator :=
  .Block label params true none

/-- ControlFrameKind. -/
inductive ControlFrameKind
  | Block (needs_end_label : Bool)
  | Function
  | Loop
  | If (params : List SignlessType) (has_else : Bool)
deriving DecidableEq

/-- ControlFrame: one active structured construct during lowering. -/
structure ControlFrame where
  id : Nat
  returns : Nat
  kind : ControlFrameKind
deriving DecidableEq

/-- ControlFrame::needs_end_label. -/
def ControlFrame.needs_end_label (frame : ControlFrame) : Bool :=
  match frame.kind with
  | .Block needs_end_label => needs_end_label
  | .If _ _ => true
  | .Loop => false
  | .Function => false

/-- ControlFrame::params: saved only for If frames. -/
def ControlFrame.params : ControlFrame → Option (List SignlessType)
  | ⟨_, _, .If params _⟩ => some params
  | _ => none

/-- A signature entry: polymorphic T or a concrete type. -/
inductive SigT
  | T
  | Concrete (ty : SignlessType)
deriving DecidableEq

/-- OpSig. -/
structure OpSig where
  input : List SigT
  output : List SigT
deriving DecidableEq

/-- OpSig::none. -/
def OpSig.none_ : OpSig := ⟨[], []⟩

/-- The structured source operators the embedding covers. -/
inductive WasmOp
  | Unreachable
  | Nop
  | Block (ty : Option SignlessType)
  | Loop (ty : Option SignlessType)
  | If (ty : Option SignlessType)
  | Else
  | End
  | GetLocal (local_index : Nat)
  | SetLocal (local_index : Nat)
  | I32Const (value : Int)
deriving DecidableEq

/-- Abort conditions of the converter; each is a panicking expect/assert or an
out-of-bounds index in the source. -/
inductive MwErr
  | eof
  | stackEmpty
  | typeMismatch
  | noFrame
  | expectedParams
  | localOob
  | noTyParam
deriving DecidableEq

/-- The converter state (MicrowasmConv minus the operator reader, which is
passed explicitly as a list). -/
structure MwState where
  is_done : Bool
  consts_to_emit : Option (List Value)
  stack : List SignlessType
  current_id : Nat
  num_locals : Nat
  control_frames : List ControlFrame
  unreachable : Bool
deriving DecidableEq

/-- MicrowasmConv::new for a function with the given parameter types, declared
local types and return types. -/
def MwState.new (params declaredLocals returns : List SignlessType) : MwState :=
  let locals := params ++ declaredLocals
  { is_done := false
    consts_to_emit := some (declaredLocals.map Value.default_for_type)
    stack := locals
    current_id := 1
    num_locals := locals.length
    control_frames := [⟨0, returns.length, .Function⟩]
    unreachable := false }

/-- next_id: hand out the current id and increment. -/
def next_id (s : MwState) : Nat × MwState :=
  (s.current_id, { s with current_id := s.current_id + 1 })

/-- local_depth: stack.len() - 1 - idx (u32 arithmetic, here Nat). -/
def local_depth (s : MwState) (idx : Nat) : Nat :=
  s.stack.length - 1 - idx

/-- block_params: a copy of the symbolic stack. -/
def block_params (s : MwState) : List SignlessType :=
  s.stack

/-- block_params_with_wasm_type: the symbolic stack extended with the block
result type, when there is one. -/
def block_params_with_wasm_type (s : MwState) (ty : Option SignlessType) :
    List SignlessType :=
  block_params s ++ ty.toList

/-- The to_drop! macro: Some(first..=last) with first = frame.returns and
last = stack_len - 1 - (num_locals + 1), through checked subtraction. -/
def toDrop (block : ControlFrame) (stackLen numLocals : Nat) : Option (Nat × Nat) :=
  let first := block.returns
  if stackLen < 1 then none
  else if stackLen - 1 < numLocals + 1 then none
  else
    let last := stackLen - 1 - (numLocals + 1)
    if first ≤ last then some (first, last) else none

/-- MicrowasmConv::drop: drain the internal index range that corresponds to
the inclusive depth range. -/
def dropStack (stack : List SignlessType) (range : Nat × Nat) : List SignlessType :=
  stack.take (stack.length - 1 - range.2) ++ stack.drop (stack.length - 1 - range.1 + 1)

/-- op_sig for the covered operators. -/
def op_sig (s : MwState) : WasmOp → Except MwErr OpSig
  | .Unreachable => .ok OpSig.none_
  | .Nop => .ok OpSig.none_
  | .Block _ => .ok OpSig.none_
  | .Loop _ => .ok OpSig.none_
  | .If _ => .ok ⟨[.Concrete I32], []⟩
  | .Else => .ok OpSig.none_
  | .End => .ok OpSig.none_
  | .GetLocal local_index =>
    match s.stack.get? local_index with
    | some ty => .ok ⟨[], [.Concrete ty]⟩
    | none => .error .localOob
  | .SetLocal local_index =>
    match s.stack.get? local_index with
    | some ty => .ok ⟨[.Concrete ty], []⟩
    | none => .error .localOob
  | .I32Const _ => .ok ⟨[], [.Concrete I32]⟩

/-- Input phase of apply_op: pop inputs right-to-left (the argument list is
sig.input already reversed), asserting each type and unifying T. -/
def applyInputs (stack : List SignlessType) (ty_param : Option SignlessType) :
    List SigT → Except MwErr (List SignlessType × Option SignlessType)
  | [] => .ok (stack, ty_param)
  | p :: ps =>
    match stack.getLast? with
    | none => .error .stackEmpty
    | some stack_ty =>
      let rest := stack.dropLast
      match p with
      | .T =>
        match ty_param with
        | some t => if t = stack_ty then applyInputs rest (some t) ps else .error .typeMismatch
        | none => applyInputs rest (some stack_ty) ps
      | .Concrete ty =>
        if ty = stack_ty then applyInputs rest ty_param ps else .error .typeMismatch

/-- Output phase of apply_op: push outputs right-to-left (the argument list is
sig.output already reversed). -/
def applyOutputs (stack : List SignlessType) (ty_param : Option SignlessType) :
    List SigT → Except MwErr (List SignlessType)
  | [] => .ok stack
  | p :: ps =>
    match p with
    | .T =>
      match ty_param with
      | some ty => applyOutputs (stack ++ [ty]) ty_param ps
      | none => .error .noTyParam
    | .Concrete ty => applyOutputs (stack ++ [ty]) ty_param ps

/-- apply_op. -/
def applyOp (s : MwState) (sig : OpSig) : Except MwErr MwState := do
  let (stack, ty_param) ← applyInputs s.stack none sig.input.reverse
  let stack ← applyOutputs stack ty_param sig.output.reverse
  .ok { s with stack := stack }

/-- The unreachable-mode scanning loop of MicrowasmConv::next: consume source
operators without emitting, counting Block/Loop/If against End, until an Else
or End at depth zero.  Returns none for end-of-stream. -/
def unreachableStep (s : MwState) (depth : Nat) :
    List WasmOp → Except MwErr (Option (List Operator) × MwState × List WasmOp)
  | [] => .error .eof
  | op :: rest =>
    match op with
    | .Block _ => unreachableStep s (depth + 1) rest
    | .Loop _ => unreachableStep s (depth + 1) rest
    | .If _ => unreachableStep s (depth + 1) rest
    | .Else =>
      if depth = 0 then
        match s.control_frames.getLast? with
        | none => .error .noFrame
        | some block =>
          let block' : ControlFrame :=
            { block with kind :=
                match block.kind with
                | .If params _ => .If params true
                | k => k }
          .ok (some [.Label (block.id, .Else)],
            { s with control_frames := s.control_frames.dropLast ++ [block'] }, rest)
      else unreachableStep s depth rest
    | .End =>
      if depth = 0 then
        match s.control_frames.getLast? with
        | none => .error .noFrame
        | some block =>
          let s := { s with control_frames := s.control_frames.dropLast }
          let s :=
            match toDrop block s.stack.length s.num_locals with
            | some r => { s with stack := dropStack s.stack r }
            | none => s
          if s.control_frames.isEmpty then
            .ok (none, { s with is_done := true }, rest)
          else
            match block.kind with
            | .If params false =>
              .ok (some [.Label (block.id, .Else),
                  .Br (.Label (block.id, .End)), .Label (block.id, .End)],
                { s with stack := params }, rest)
            | _ => .ok (some [.Label (block.id, .End)], s, rest)
      else unreachableStep s (depth - 1) rest
    | _ => unreachableStep s depth rest

/-- Reachable-mode dispatch of MicrowasmConv::next, after op_sig and apply_op
have been applied. -/
def dispatch (s : MwState) (op : WasmOp) (rest : List WasmOp) :
    Except MwErr (Option (List Operator) × MwState × List WasmOp) :=
  match op with
  | .Unreachable =>
    .ok (some [.Unreachable], { s with unreachable := true }, rest)
  | .Nop => .ok (some [], s, rest)
  | .Block ty =>
    let (id, s) := next_id s
    let frame : ControlFrame :=
      ⟨id, if ty = none then 0 else 1, .Block false⟩
    let s := { s with control_frames := s.control_frames ++ [frame] }
    .ok (some [Operator.end_ (block_params_with_wasm_type s ty) (id, .End)], s, rest)
  | .Loop ty =>
    let (id, s) := next_id s
    let frame : ControlFrame := ⟨id, if ty = none then 0 else 1, .Loop⟩
    let s := { s with control_frames := s.control_frames ++ [frame] }
    let label : WasmLabel := (id, .Header)
    .ok (some [Operator.loop_ (block_params s) label,
        Operator.end_ (block_params_with_wasm_type s ty) (id, .End),
        .Br (.Label label), .Label label], s, rest)
  | .If ty =>
    let (id, s) := next_id s
    let params := block_params s
    let frame : ControlFrame := ⟨id, if ty = none then 0 else 1, .If params false⟩
    let s := { s with control_frames := s.control_frames ++ [frame] }
    let then_ : WasmLabel := (id, .Header)
    let else_ : WasmLabel := (id, .Else)
    let end_ : WasmLabel := (id, .End)
    .ok (some [Operator.block params then_,
        Operator.block params else_,
        Operator.end_ (block_params_with_wasm_type s ty) end_,
        .BrIf (.Label then_) (.Label else_),
        .Label then_], s, rest)
  | .Else =>
    match s.control_frames.getLast? with
    | none => .error .noFrame
    | some block =>
      let to_drop := toDrop block s.stack.length s.num_locals
      let block' : ControlFrame :=
        { block with kind :=
            match block.kind with
            | .If params _ => .If params true
            | k => k }
      match block'.params with
      | none => .error .expectedParams
      | some params =>
        let s :=
          { s with
            control_frames := s.control_frames.dropLast ++ [block']
            stack := params }
        let label : WasmLabel := (block.id, .Else)
        .ok (some ((to_drop.toList.map fun r => Operator.Drop r.1 r.2) ++
            [.Br (.Label (block.id, .End)), .Label label]), s, rest)
  | .End =>
    match s.control_frames.getLast? with
    | none => .error .noFrame
    | some block =>
      let s := { s with control_frames := s.control_frames.dropLast }
      let to_drop := toDrop block s.stack.length s.num_locals
      let s :=
        match to_drop with
        | some r => { s with stack := dropStack s.stack r }
        | none => s
      match block.kind with
      | .If params false =>
        let else_ : WasmLabel := (block.id, .Else)
        let end_ : WasmLabel := (block.id, .End)
        let s := { s with stack := params }
        .ok (some ((to_drop.toList.map fun r => Operator.Drop r.1 r.2) ++
            [.Br (.Label else_), .Label else_, .Br (.Label end_), .Label end_]), s, rest)
      | _ =>
        if s.control_frames.isEmpty then
          .ok (some [.Br .Return], { s with is_done := true }, rest)
        else if block.needs_end_label then
          let label : WasmLabel := (block.id, .End)
          .ok (some ((to_drop.toList.map fun r => Operator.Drop r.1 r.2) ++
              [.Br (.Label label), .Label label]), s, rest)
        else
          .ok (some (to_drop.toList.map fun r => Operator.Drop r.1 r.2), s, rest)
  | .GetLocal local_index =>
    let depth := local_depth s local_index - 1
    .ok (some [.Pick depth], s, rest)
  | .SetLocal local_index =>
    let depth := local_depth s local_index + 1
    .ok (some [.Swap depth, .Drop 0 0], s, rest)
  | .I32Const value =>
    .ok (some [.Const (.I32 value)], s, rest)

/-- MicrowasmConv::next: one pull on the converter. -/
def next (s : MwState) (ops : List WasmOp) :
    Except MwErr (Option (List Operator) × MwState × List WasmOp) :=
  if s.is_done then .ok (none, s, ops)
  else
    match s.consts_to_emit with
    | some consts =>
      .ok (some (consts.map Operator.Const), { s with consts_to_emit := none }, ops)
    | none =>
      if s.unreachable then
        unreachableStep { s with unreachable := false } 0 ops
      else
        match ops with
        | [] => .error .eof
        | op :: rest => do
          let sig ← op_sig s op
          let s ← applyOp s sig
          dispatch s op rest

end Microwasm

namespace Backend

/-- The composition GetLocal k; SetLocal k used by the round-trip property. -/
def get_then_set (ctx : Context) (local_idx : Nat) : Except Err (Context × List Inst) := do
  let (ctx, is0) ← get_local_i32 ctx local_idx
  let (ctx, is1) ← set_local_i32 ctx local_idx
  .ok (ctx, is0 ++ is1)

/-- Registers that can ever sit in the scratch pool or in a Temp entry: the
designated scratch registers plus RAX (which enters the stack only through
push_return_value and can be released into the pool afterwards). -/
def raxOrScratch : List GPR := [RAX, R10, R11]

/-- The list of registers referenced by Temp entries of a stack. -/
def tempRegs (stack : List StackValue) : List GPR :=
  stack.filterMap fun sv =>
    match sv with
    | .Temp gpr => some gpr
    | _ => none

/-- A stack entry is acceptable for a pool mask when any register it holds is
taken and comes from the scratch-or-RAX set. -/
def tempOkB (bits : Nat) : StackValue → Bool
  | .Temp g => !bits.testBit g && decide (g ∈ raxOrScratch)
  | _ => true

/-- A locals-table entry may only name an argument register. -/
def argRegOkB : ValueLocation → Bool
  | .Reg g => decide (g ∈ ARGS_IN_GPRS)
  | _ => true

/-- Well-formedness of a context: the mask is 16 bits wide, free registers come
only from the scratch pool (or a released RAX), registers held by Temp entries
are taken, from that same set, and pairwise distinct, and the locals table
only ever holds argument registers. -/
def WF (ctx : Context) : Prop :=
  ctx.regs < 65536 ∧
  (∀ g < 16, ctx.regs.testBit g = true → g ∈ raxOrScratch) ∧
  (∀ sv ∈ ctx.stack, tempOkB ctx.regs sv = true) ∧
  (tempRegs ctx.stack).Nodup ∧
  (∀ loc ∈ ctx.locals, argRegOkB loc = true)

/-- The invariant claimed for the register pool: every GPR referenced by a Temp
entry of the abstract operand stack is taken, and every free GPR is not
referenced by any live stack entry. -/
def stackNoFreeGpr (ctx : Context) : Prop :=
  (∀ g : GPR, StackValue.Temp g ∈ ctx.stack → isFreeBits ctx.regs g = false) ∧
  (∀ g : GPR, isFreeBits ctx.regs g = true →
    ∀ sv ∈ ctx.stack, sv.location ctx.locals ≠ some (ValueLocation.Reg g))

/-- A value held in flight is acceptable when any register it owns is taken,
comes from the scratch-or-RAX set, and is not also referenced by the stack. -/
def ValueOk (ctx : Context) : Value → Prop
  | .Local _ => True
  | .Temp g => ctx.regs.testBit g = false ∧ g ∈ raxOrScratch ∧
      StackValue.Temp g ∉ ctx.stack

/-- The context-level emission primitives, for quantifying over sequences. -/
inductive EmitOp
  | literal (imm : Int)
  | add
  | sub
  | and
  | or
  | xor
  | mul
  | relopEq
  | getLocal (k : Nat)
  | setLocal (k : Nat)
  | popDiscard
  | callDirect (index arg_arity return_arity : Nat)

/-- Run one primitive. -/
def stepOp (ctx : Context) : EmitOp → Except Err (Context × List Inst)
  | .literal imm => literal_i32 ctx imm
  | .add => i32_add ctx
  | .sub => i32_sub ctx
  | .and => i32_and ctx
  | .or => i32_or ctx
  | .xor => i32_xor ctx
  | .mul => i32_mul ctx
  | .relopEq => relop_eq_i32 ctx
  | .getLocal k => get_local_i32 ctx k
  | .setLocal k => set_local_i32 ctx k
  | .popDiscard => do
    let (_, ctx, insts) ← pop_i32 ctx
    .ok (ctx, insts)
  | .callDirect index arg_arity return_arity =>
    call_direct ctx index arg_arity return_arity

/-- Run a sequence of primitives. -/
def runOps (ctx : Context) : List EmitOp → Except Err Context
  | [] => .ok ctx
  | op :: ops => do
    let (ctx, _) ← stepOp ctx op
    runOps ctx ops

end Backend

namespace Microwasm

/-- Pull n batches from the converter, keeping only the final state and the
remaining operators. -/
def runBatches : MwState → List WasmOp → Nat → Except MwErr (MwState × List WasmOp)
  | s, ops, 0 => .ok (s, ops)
  | s, ops, n + 1 => do
    let (_, s, ops) ← next s ops
    runBatches s ops n

/-- The source program of the C5 scenario: a function (param i32) (result i32)
whose body is get_local 0; if; i32.const 5; unreachable; else; ...; end. -/
def elseScenarioOps : List WasmOp :=
  [.GetLocal 0, .If none, .I32Const 5, .Unreachable, .Else, .End]

/-- The converter state of the C5 scenario just after the Unreachable operator:
inside the If frame (saved params [I32]) with the stale symbolic stack
[I32, I32] left from the then-branch. -/
def elseScenarioState : MwState :=
  { is_done := false
    consts_to_emit := none
    stack := [I32, I32]
    current_id := 2
    num_locals := 1
    control_frames := [⟨0, 1, .Function⟩, ⟨1, 0, .If [I32] false⟩]
    unreachable := true }

/-- The converter state just after the Else of the C5 scenario is consumed. -/
def elseScenarioPost : MwState :=
  { is_done := false
    consts_to_emit := none
    stack := [I32, I32]
    current_id := 2
    num_locals := 1
    control_frames := [⟨0, 1, .Function⟩, ⟨1, 0, .If [I32] true⟩]
    unreachable := false }

end Microwasm

namespace Backend

/-! Basic facts about the 16-bit register mask operations. -/

theorem except_bind_ok {ε α β : Type} (x : Except ε α) (f : α → Except ε β) (b : β)
    (h : (x >>= f) = .ok b) : ∃ a, x = .ok a ∧ f a = .ok b := by
  cases x with
  | ok a => exact ⟨a, rfl, h⟩
  | error e => exact absurd h (by simp [Bind.bind, Except.bind])

theorem isFreeBits_eq_testBit (bits : Nat) (gpr : GPR) :
    isFreeBits bits gpr = bits.testBit gpr := by
  unfold isFreeBits
  rw [Nat.one_shiftLeft]
  cases h : bits.testBit gpr with
  | false =>
    have : bits &&& 2 ^ gpr = 0 := by
      apply Nat.eq_of_testBit_eq
      intro i
      rw [Nat.testBit_land, Nat.testBit_two_pow, Nat.zero_testBit]
      by_cases hi : gpr = i
      · subst hi; simp [h]
      · simp [hi]
    simp [this]
  | true =>
    have : (bits &&& 2 ^ gpr).testBit gpr = true := by
      rw [Nat.testBit_land, Nat.testBit_two_pow]
      simp [h]
    have hne : bits &&& 2 ^ gpr ≠ 0 := by
      intro h0
      rw [h0, Nat.zero_testBit] at this
      exact Bool.false_ne_true this
    simp [hne]

theorem testBit_markUsed (bits : Nat) (gpr i : Nat) (hg : gpr < 16) :
    (markUsed bits gpr).testBit i =
      (bits.testBit i && !(decide (i = gpr)) && decide (i < 16)) := by
  unfold markUsed
  have h65535 : (65535 : Nat) = 2 ^ 16 - 1 := by norm_num
  rw [Nat.testBit_land, Nat.testBit_xor, Nat.one_shiftLeft, Nat.testBit_two_pow,
    h65535, Nat.testBit_two_pow_sub_one]
  rcases Nat.lt_or_ge i 16 with hi | hi
  · by_cases he : i = gpr
    · subst he; simp [hi]
    · have : ¬gpr = i := fun hh => he hh.symm
      simp [hi, he, this]
  · have hne : ¬gpr = i := by omega
    have : ¬i < 16 := by omega
    simp [hne, this]

theorem testBit_lor_shift (bits : Nat) (gpr i : Nat) :
    (bits ||| (1 <<< gpr)).testBit i = (bits.testBit i || decide (i = gpr)) := by
  rw [Nat.testBit_lor, Nat.one_shiftLeft, Nat.testBit_two_pow]
  by_cases h : gpr = i
  · subst h; simp
  · have : ¬i = gpr := fun hh => h hh.symm
    simp [h, this]

theorem markUsed_lt (bits : Nat) (gpr : Nat) (h : bits < 65536) :
    markUsed bits gpr < 65536 :=
  Nat.lt_of_le_of_lt Nat.and_le_left h

theorem lor_shift_lt (bits : Nat) (gpr : Nat) (h : bits < 65536) (hg : gpr < 16) :
    bits ||| (1 <<< gpr) < 65536 := by
  have h2 : (1 <<< gpr) < 65536 := by
    rw [Nat.one_shiftLeft]
    calc 2 ^ gpr < 2 ^ 16 := Nat.pow_lt_pow_right (by omega) hg
    _ = 65536 := by norm_num
  have := Nat.or_lt_two_pow (n := 16) (by simpa using h) (by simpa using h2)
  simpa using this

theorem testBit_of_ge_16 (bits i : Nat) (h : bits < 65536) (hi : 16 ≤ i) :
    bits.testBit i = false := by
  apply Nat.testBit_lt_two_pow
  calc bits < 65536 := h
  _ = 2 ^ 16 := by norm_num
  _ ≤ 2 ^ i := Nat.pow_le_pow_right (by omega) hi

theorem takeBits_ok_spec (bits : Nat) (gpr : GPR) (bits' : Nat)
    (h : takeBits bits = .ok (gpr, bits')) :
    bits.testBit gpr = true ∧ gpr < 16 ∧ bits' = markUsed bits gpr := by
  unfold takeBits at h
  cases hf : (List.range 16).find? (fun i => bits.testBit i) with
  | none => rw [hf] at h; exact absurd h (by simp)
  | some g =>
    rw [hf] at h
    have hb : bits.testBit g = true := List.find?_some hf
    have hm : g ∈ List.range 16 := List.mem_of_find?_eq_some hf
    have heq : g = gpr ∧ markUsed bits g = bits' := by
      constructor <;> cases h <;> rfl
    obtain ⟨h1, h2⟩ := heq
    subst h1
    exact ⟨hb, List.mem_range.1 hm, h2.symm⟩

theorem takeBits_ok_of_testBit (bits : Nat) (i : Nat) (hi : i < 16)
    (h : bits.testBit i = true) : ∃ p, takeBits bits = .ok p := by
  unfold takeBits
  cases hf : (List.range 16).find? (fun i => bits.testBit i) with
  | none =>
    have := List.find?_eq_none.1 hf i (List.mem_range.2 hi)
    simp [h] at this
  | some g => exact ⟨(g, markUsed bits g), rfl⟩

theorem freeCount_zero_iff (bits : Nat) :
    freeCount bits = 0 ↔ ∀ i < 16, bits.testBit i = false := by
  unfold freeCount
  rw [List.length_eq_zero, List.filter_eq_nil_iff]
  constructor
  · intro h i hi
    have := h i (List.mem_range.2 hi)
    simpa using this
  · intro h i hi
    have := h i (List.mem_range.1 hi)
    simp [this]

theorem freeCount_pos_iff (bits : Nat) :
    1 ≤ freeCount bits ↔ ∃ i < 16, bits.testBit i = true := by
  constructor
  · intro h
    by_contra hno
    push_neg at hno
    have : freeCount bits = 0 := (freeCount_zero_iff bits).2 (by
      intro i hi
      have := hno i hi
      simpa using this)
    omega
  · intro ⟨i, hi, hb⟩
    unfold freeCount
    have : i ∈ (List.range 16).filter (fun i => bits.testBit i) := by
      rw [List.mem_filter]
      exact ⟨List.mem_range.2 hi, by simp [hb]⟩
    have := List.length_pos.2 (List.ne_nil_of_mem this)
    omega

theorem releaseBits_ok_spec (bits : Nat) (gpr : GPR) (bits' : Nat)
    (h : releaseBits bits gpr = .ok bits') :
    bits.testBit gpr = false ∧ bits' = bits ||| (1 <<< gpr) := by
  unfold releaseBits at h
  rw [isFreeBits_eq_testBit] at h
  cases hb : bits.testBit gpr with
  | false => rw [hb] at h; simp at h; exact ⟨rfl, h.symm⟩
  | true => rw [hb] at h; exact absurd h (by simp)

theorem releaseBits_ok_of_not_free (bits : Nat) (gpr : GPR)
    (h : bits.testBit gpr = false) :
    releaseBits bits gpr = .ok (bits ||| (1 <<< gpr)) := by
  unfold releaseBits
  rw [isFreeBits_eq_testBit, h]
  simp

end Backend

namespace Backend

/-! Claim theorems about the backend. -/

/-- C10: local_location is total over all local indices.  An in-table index
returns the stored entry; an out-of-table index returns
Stack(8 * (index - 6)) with saturating subtraction, so an out-of-table index
below 6 yields Stack(0) rather than failing. -/
theorem c10_local_location_total :
    (∀ (locals : List ValueLocation) (index : Nat) (loc : ValueLocation),
      locals.get? index = some loc → local_location locals index = loc) ∧
    (∀ (locals : List ValueLocation) (index : Nat),
      locals.get? index = none →
      local_location locals index = .Stack ((((index - 6) * 8 : Nat)) : Int)) ∧
    (∀ (locals : List ValueLocation) (index : Nat),
      locals.get? index = none → index < 6 →
      local_location locals index = .Stack 0) := by
  refine ⟨?_, ?_, ?_⟩
  · intro locals index loc h
    unfold local_location
    rw [h]
  · intro locals index h
    unfold local_location
    rw [h]
    rfl
  · intro locals index h h6
    unfold local_location
    rw [h]
    have : index - ARGS_IN_GPRS.length = 0 := by
      have : ARGS_IN_GPRS.length = 6 := rfl
      omega
    rw [this]
    simp

/-- Witness for C10 at concrete inputs. -/
theorem c10_witness :
    ([ValueLocation.Reg 7].get? 0 = some (.Reg 7) ∧
      local_location [.Reg 7] 0 = .Reg 7) ∧
    ([ValueLocation.Reg 7].get? 9 = none ∧
      local_location [.Reg 7] 9 = .Stack ((((9 - 6) * 8 : Nat)) : Int)) ∧
    ([ValueLocation.Reg 7].get? 3 = none ∧ 3 < 6 ∧
      local_location [.Reg 7] 3 = .Stack 0) :=
  ⟨⟨rfl, c10_local_location_total.1 [.Reg 7] 0 (.Reg 7) rfl⟩,
   ⟨rfl, c10_local_location_total.2.1 [.Reg 7] 9 rfl⟩,
   ⟨rfl, by decide, c10_local_location_total.2.2 [.Reg 7] 3 rfl (by decide)⟩⟩

/-- C3: free_arg_registers rewrites the locals-table entry not to the local's
offset from the base of the locals frame (8 * i) but to the depth-adjusted
offset adjusted_offset(8 * i) = 8 * depth + 8 * i.  At transient depth 1 the
entry for local 0 (held in RDI) becomes Stack(8), not Stack(0); the emitted
store uses the same adjusted offset. -/
theorem c3_free_arg_registers_stores_adjusted_offset :
    free_arg_registers ⟨3072, [.Pop], [.Reg 7], 1, []⟩ 1 =
      (⟨3072, [.Pop], [.Stack 8], 1, []⟩, [.movMR 8 7]) ∧
    ValueLocation.Stack 8 ≠ ValueLocation.Stack (((0 * WORD_SIZE : Nat)) : Int) := by
  constructor
  · decide
  · decide

/-- C8: get_local_i32(k) immediately followed by set_local_i32(k) is a no-op:
the context (operand stack, locals, register pool, depth counter) is unchanged
and no machine instruction is emitted. -/
theorem c8_get_set_roundtrip (ctx : Context) (k : Nat) :
    get_then_set ctx k = .ok (ctx, []) := by
  obtain ⟨regs, stack, locals, depth, fs⟩ := ctx
  unfold get_then_set get_local_i32 push_i32 set_local_i32 pop_i32
  cases hloc : local_location locals k with
  | Reg r =>
    simp [Bind.bind, Except.bind, Value.location, hloc, copy_value, free_val]
  | Stack o =>
    simp [Bind.bind, Except.bind, Value.location, hloc, copy_value, free_val]

/-- C2: push_i32 of a Temp(g) keeps the entry as Temp(g), with no instruction
and no depth change, exactly when the pool has a free scratch register;
otherwise it emits push g, releases g, records Pop and increments the depth.
pop_i32 of a Pop entry decrements the depth, takes a fresh scratch, emits a pop
into it and returns Temp of that register. -/
theorem c2_push_pop_discipline :
    (∀ (ctx : Context) (g : GPR), 1 ≤ freeCount ctx.regs →
      push_i32 ctx (.Temp g) = .ok ({ ctx with stack := .Temp g :: ctx.stack }, [])) ∧
    (∀ (ctx : Context) (g : GPR), ctx.regs < 65536 → freeCount ctx.regs = 0 →
      push_i32 ctx (.Temp g) =
        .ok ({ ctx with
                stack := .Pop :: ctx.stack
                depth := ctx.depth + 1
                regs := ctx.regs ||| (1 <<< g) }, [.pushR g])) ∧
    (∀ (ctx : Context) (rest : List StackValue) (g : GPR) (bits : Nat),
      ctx.stack = .Pop :: rest → ctx.depth ≠ 0 → takeBits ctx.regs = .ok (g, bits) →
      pop_i32 ctx = .ok (.Temp g,
        { ctx with
            stack := rest
            depth := ctx.depth - 1
            regs := bits }, [.popR g])) := by
  refine ⟨?_, ?_, ?_⟩
  · intro ctx g h
    show (if freeCount ctx.regs ≥ 1 then _ else _) = _
    rw [if_pos (show freeCount ctx.regs ≥ 1 from h)]
  · intro ctx g hlt h0
    have hb : ctx.regs.testBit g = false := by
      rcases Nat.lt_or_ge g 16 with hg | hg
      · exact (freeCount_zero_iff _).1 h0 g hg
      · exact testBit_of_ge_16 _ _ hlt hg
    show (if freeCount ctx.regs ≥ 1 then _ else _) = _
    rw [if_neg (show ¬freeCount ctx.regs ≥ 1 by rw [h0]; omega)]
    rw [releaseBits_ok_of_not_free _ _ hb]
    rfl
  · intro ctx rest g bits hstack hdepth htake
    obtain ⟨regs, stk, locals, depth, fs⟩ := ctx
    simp only at hstack htake ⊢
    subst hstack
    unfold pop_i32
    simp only
    rw [if_neg (by simpa using hdepth)]
    rw [htake]
    rfl

/-- Witness for C2 at concrete contexts: a kept push, a spilled push, and a
pop of a Pop entry. -/
theorem c2_witness :
    (1 ≤ freeCount (3072 : Nat) ∧
      push_i32 ⟨3072, [], [], 0, []⟩ (.Temp 11) = .ok (⟨3072, [.Temp 11], [], 0, []⟩, [])) ∧
    ((0 : Nat) < 65536 ∧ freeCount (0 : Nat) = 0 ∧
      push_i32 ⟨0, [], [], 0, []⟩ (.Temp 11) =
        .ok (⟨(0 : Nat) ||| (1 <<< 11), [.Pop], [], 0 + 1, []⟩, [.pushR 11])) ∧
    (takeBits (3072 : Nat) = .ok (10, 2048) ∧
      pop_i32 ⟨3072, [.Pop], [], 1, []⟩ =
        .ok (.Temp 10, ⟨2048, [], [], 1 - 1, []⟩, [.popR 10])) := by
  refine ⟨⟨by decide, ?_⟩, ⟨by decide, by decide, ?_⟩, ⟨by decide, ?_⟩⟩
  · exact c2_push_pop_discipline.1 ⟨3072, [], [], 0, []⟩ 11 (by decide)
  · exact c2_push_pop_discipline.2.1 ⟨0, [], [], 0, []⟩ 11 (by decide) (by decide)
  · exact c2_push_pop_discipline.2.2 ⟨3072, [.Pop], [], 1, []⟩ [] 10 2048 rfl
      (by decide) (by decide)

end Backend

namespace Microwasm

/-! Claim theorems about the microwasm converter. -/

/-- C5 divergence: in unreachable mode, an Else at nesting depth zero does
re-enter reachable mode and does yield the batch [Label((frame_id, Else))],
but the converter leaves its symbolic type stack unchanged instead of
resetting it to the enclosing If frame's saved params.  The state below is
reached from the function (param i32) (result i32) whose body starts
get_local 0; if; i32.const 5; unreachable; else. -/
theorem c5_unreachable_else_divergence :
    runBatches (MwState.new [I32] [] [I32]) elseScenarioOps 5 =
      .ok (elseScenarioState, [.Else, .End]) ∧
    elseScenarioState.unreachable = true ∧
    elseScenarioState.control_frames.getLast? = some ⟨1, 0, .If [I32] false⟩ ∧
    ControlFrame.params ⟨1, 0, .If [I32] false⟩ = some [I32] ∧
    next elseScenarioState [.Else, .End] =
      .ok (some [.Label (1, .Else)], elseScenarioPost, [.End]) ∧
    elseScenarioPost.unreachable = false ∧
    elseScenarioPost.stack = [I32, I32] ∧
    elseScenarioPost.stack ≠ [I32] := by
  refine ⟨by decide, rfl, rfl, rfl, by decide, rfl, rfl, by decide⟩

/-- C7 counterexample: a reachable SetLocal 0 processed with symbolic stack
[I32, I32, I32] emits Swap 2 followed by Drop(0..=0); the claimed depth
current_stack_len - k + 1 evaluates to 4 (on the stack length before the
operand is popped) or 3 (on the length after), neither of which is 2. -/
theorem c7_counterexample :
    next ⟨false, none, [I32, I32, I32], 1, 2, [⟨0, 1, .Function⟩], false⟩
        [WasmOp.SetLocal 0] =
      .ok (some [.Swap 2, .Drop 0 0],
        ⟨false, none, [I32, I32], 1, 2, [⟨0, 1, .Function⟩], false⟩, []) ∧
    (2 : Nat) ≠ 3 - 0 + 1 ∧ (2 : Nat) ≠ 2 - 0 + 1 := by
  refine ⟨by decide, by decide, by decide⟩

/-- C7 as amended: a reachable SetLocal k emits exactly Swap depth followed by
Drop(0..=0), where depth = current_stack_len - k - 1 with current_stack_len
the symbolic stack length at the program point before the operand of the
SetLocal is popped. -/
theorem c7_set_local_batch (s : MwState) (k : Nat) (ty : SignlessType)
    (rest : List WasmOp)
    (hdone : s.is_done = false) (hconsts : s.consts_to_emit = none)
    (hunr : s.unreachable = false)
    (hget : s.stack.get? k = some ty) (htop : s.stack.getLast? = some ty)
    (hk : k + 1 < s.stack.length) :
    next s (WasmOp.SetLocal k :: rest) =
      .ok (some [.Swap (s.stack.length - 1 - k), .Drop 0 0],
        { s with stack := s.stack.dropLast }, rest) := by
  unfold next
  rw [hdone, hconsts, hunr]
  simp only [Bool.false_eq_true, if_false]
  have hsig : op_sig s (WasmOp.SetLocal k) = .ok ⟨[.Concrete ty], []⟩ := by
    simp only [op_sig]
    rw [hget]
  have happly : applyOp s ⟨[.Concrete ty], []⟩ = .ok { s with stack := s.stack.dropLast } := by
    unfold applyOp applyInputs
    simp only [List.reverse_cons, List.reverse_nil, List.nil_append]
    rw [htop]
    simp only [if_pos rfl]
    rfl
  show (do
    let sig ← op_sig s (WasmOp.SetLocal k)
    let s ← applyOp s sig
    dispatch s (WasmOp.SetLocal k) rest) = _
  rw [hsig]
  show (do
    let s ← applyOp s ⟨[.Concrete ty], []⟩
    dispatch s (WasmOp.SetLocal k) rest) = _
  rw [happly]
  show dispatch { s with stack := s.stack.dropLast } (WasmOp.SetLocal k) rest = _
  unfold dispatch local_depth
  have harith : s.stack.dropLast.length - 1 - k + 1 = s.stack.length - 1 - k := by
    rw [List.length_dropLast]
    omega
  simp only [harith]
  rw [hdone, hconsts, hunr]

/-- Witness for the amended C7 at a concrete converter state. -/
theorem c7_witness :
    next ⟨false, none, [I32, I32, I32], 1, 2, [⟨0, 1, .Function⟩], false⟩
        [WasmOp.SetLocal 1] =
      .ok (some [.Swap ([I32, I32, I32].length - 1 - 1), .Drop 0 0],
        ⟨false, none, [I32, I32, I32].dropLast, 1, 2, [⟨0, 1, .Function⟩], false⟩, []) :=
  c7_set_local_batch ⟨false, none, [I32, I32, I32], 1, 2, [⟨0, 1, .Function⟩], false⟩
    1 I32 [] rfl rfl rfl rfl rfl (by decide)

end Microwasm

namespace Backend

/-- Clearing the low bit with the u32 mask !1 rounds down to even; on inputs
below 2^32 this is exactly 2 * (n / 2). -/
theorem and_mask_not_one (n : Nat) (h : n < 4294967296) :
    n &&& 4294967294 = 2 * (n / 2) := by
  apply Nat.eq_of_testBit_eq
  intro i
  rw [Nat.testBit_land]
  cases i with
  | zero =>
    have hm : Nat.testBit 4294967294 0 = false := by decide
    rw [hm, Bool.and_false, Nat.testBit_zero]
    have h2 : 2 * (n / 2) % 2 = 0 := Nat.mul_mod_right 2 _
    simp [h2]
  | succ i =>
    have hmask : Nat.testBit 4294967294 (i + 1) = decide (i < 31) := by
      have h1 : (4294967294 : Nat) / 2 = 2147483647 := by norm_num
      have h2 : (2147483647 : Nat) = 2 ^ 31 - 1 := by norm_num
      rw [Nat.testBit_succ, h1, h2, Nat.testBit_two_pow_sub_one]
    rw [hmask, Nat.testBit_succ, Nat.testBit_succ,
      Nat.mul_div_cancel_left _ (show 0 < 2 by omega)]
    by_cases hi : i < 31
    · simp [hi]
    · have hdiv : n / 2 < 2147483648 := by
        rw [Nat.div_lt_iff_lt_mul (show 0 < 2 by omega)]
        omega
      have hf : (n / 2).testBit i = false := by
        apply Nat.testBit_lt_two_pow
        calc n / 2 < 2147483648 := hdiv
        _ = 2 ^ 31 := by norm_num
        _ ≤ 2 ^ i := Nat.pow_le_pow_right (by omega) (by omega)
      simp [hi, hf]

/-- C6: start_function computes framesize = 8 * r with r the even round-up of
declared locals + min(arg_count, 6); it emits push rbp; mov rbp, rsp and then
sub rsp, framesize only when the framesize is nonzero, and the locals table is
the min(arg_count, 6) argument-register locations followed by
Stack(((i + 2) * 8) + framesize) for each stack-passed argument i. -/
theorem c6_start_function (ctx : Context) (arguments locals : Nat)
    (h : locals + 7 < 4294967296) :
    ∃ r, r % 2 = 0 ∧ locals + min arguments 6 ≤ r ∧ r ≤ locals + min arguments 6 + 1 ∧
      start_function ctx arguments locals =
        (⟨ctx.regs, ctx.stack,
            (ARGS_IN_GPRS.take (min arguments 6)).map ValueLocation.Reg ++
            (List.range (arguments - 6)).map
              (fun arg_i => ValueLocation.Stack
                ((((arg_i + 2) * 8 : Nat) : Int) + ((r * 8 : Nat) : Int))),
            ctx.depth, ctx.funcStarts⟩,
          [Inst.pushRbp, Inst.movRbpRsp] ++
            if (((r * 8 : Nat) : Int) > 0) then [Inst.subRspImm ((r * 8 : Nat) : Int)]
            else []) := by
  refine ⟨2 * ((locals + min arguments 6 + 1) / 2), ?_, ?_, ?_, ?_⟩
  · simp [Nat.mul_mod_right]
  · omega
  · omega
  · have h6 : ARGS_IN_GPRS.length = 6 := rfl
    have hws : WORD_SIZE = 8 := rfl
    have hmask : (locals + min arguments 6 + 1) &&& 4294967294 =
        2 * ((locals + min arguments 6 + 1) / 2) := by
      apply and_mask_not_one
      omega
    have hmin : min (min arguments 6) 6 = min arguments 6 := by omega
    simp only [start_function, h6, hws, List.length_take, hmin, hmask]

/-- Witness for C6 at a two-argument function with one declared local. -/
theorem c6_witness :
    (1 : Nat) + 7 < 4294967296 ∧
    ∃ r, r % 2 = 0 ∧ 1 + min 2 6 ≤ r ∧ r ≤ 1 + min 2 6 + 1 ∧
      start_function ⟨3072, [], [], 0, []⟩ 2 1 =
        (⟨(⟨3072, [], [], 0, []⟩ : Context).regs, (⟨3072, [], [], 0, []⟩ : Context).stack,
            (ARGS_IN_GPRS.take (min 2 6)).map ValueLocation.Reg ++
            (List.range (2 - 6)).map
              (fun arg_i => ValueLocation.Stack
                ((((arg_i + 2) * 8 : Nat) : Int) + ((r * 8 : Nat) : Int))),
            (⟨3072, [], [], 0, []⟩ : Context).depth,
            (⟨3072, [], [], 0, []⟩ : Context).funcStarts⟩,
          [Inst.pushRbp, Inst.movRbpRsp] ++
            if (((r * 8 : Nat) : Int) > 0) then [Inst.subRspImm ((r * 8 : Nat) : Int)]
            else []) :=
  ⟨by decide, c6_start_function ⟨3072, [], [], 0, []⟩ 2 1 (by decide)⟩

end Backend

namespace Backend

/-! Error classification: the multiple-return assertion is the only source of
the multipleReturn abort. -/

theorem except_bind_error {ε α β : Type} {x : Except ε α} {f : α → Except ε β} {e : ε}
    (h : (x >>= f) = .error e) : x = .error e ∨ ∃ a, x = .ok a ∧ f a = .error e := by
  cases x with
  | error e' =>
    left
    have : e' = e := by
      have hh : (Except.error e' : Except ε β) = .error e := h
      cases hh
      rfl
    rw [this]
  | ok a => exact Or.inr ⟨a, rfl, h⟩

/-- Results that can never be the multipleReturn abort. -/
def NoMulti {α : Type} (x : Except Err α) : Prop :=
  ∀ e, x = .error e → e ≠ Err.multipleReturn

theorem noMulti_ok {α : Type} (a : α) : NoMulti (.ok a) := by
  intro e h
  exact absurd h (by simp)

theorem noMulti_pure_bind {α β : Type} {a : α} {f : α → Except Err β}
    (h : NoMulti (f a)) : NoMulti (pure a >>= f) := h

theorem noMulti_bind {α β : Type} {x : Except Err α} {f : α → Except Err β}
    (hx : NoMulti x) (hf : ∀ a, NoMulti (f a)) : NoMulti (x >>= f) := by
  intro e h
  rcases except_bind_error h with h1 | ⟨a, _, h2⟩
  · exact hx e h1
  · exact hf a e h2

theorem noMulti_releaseBits (bits : Nat) (gpr : GPR) : NoMulti (releaseBits bits gpr) := by
  intro e h
  unfold releaseBits at h
  by_cases hf : isFreeBits bits gpr = true
  · rw [if_pos hf] at h
    cases h
    intro hc
    exact absurd hc (by simp)
  · rw [if_neg hf] at h
    exact absurd h (by simp)

theorem noMulti_takeBits (bits : Nat) : NoMulti (takeBits bits) := by
  intro e h
  unfold takeBits at h
  cases hf : (List.range 16).find? (fun i => bits.testBit i) with
  | none =>
    rw [hf] at h
    cases h
    intro hc
    exact absurd hc (by simp)
  | some g =>
    rw [hf] at h
    exact absurd h (by simp)

theorem noMulti_error {α : Type} (e : Err) (h : e ≠ Err.multipleReturn) :
    NoMulti (Except.error e : Except Err α) := by
  intro e' h'
  cases h'
  exact h

theorem noMulti_pop_i32 (ctx : Context) : NoMulti (pop_i32 ctx) := by
  unfold pop_i32
  split
  · exact noMulti_error _ (by decide)
  · split
    · exact noMulti_ok _
    · exact noMulti_ok _
    · split
      · exact noMulti_error _ (by decide)
      · exact noMulti_bind (noMulti_takeBits _) fun ⟨g, b⟩ => noMulti_ok _

theorem noMulti_copy_value (ctx : Context) (src dst : ValueLocation) :
    NoMulti (copy_value ctx src dst) := by
  unfold copy_value
  split
  · dsimp only
    split
    · exact noMulti_bind (noMulti_takeBits _) fun ⟨g, bits⟩ =>
        noMulti_bind (noMulti_releaseBits _ _) fun _ => noMulti_ok _
    · exact noMulti_ok _
  · exact noMulti_ok _
  · exact noMulti_ok _
  · split
    · exact noMulti_ok _
    · exact noMulti_ok _

theorem noMulti_free_val (ctx : Context) (val : Value) : NoMulti (free_val ctx val) := by
  unfold free_val
  cases val with
  | Local _ => exact noMulti_ok _
  | Temp reg => exact noMulti_bind (noMulti_releaseBits _ _) fun _ => noMulti_ok _

theorem noMulti_pop_i32_into (ctx : Context) (dst : ValueLocation) :
    NoMulti (pop_i32_into ctx dst) := by
  unfold pop_i32_into
  exact noMulti_bind (noMulti_pop_i32 _) fun ⟨val, ctx1, is0⟩ =>
    noMulti_bind (noMulti_copy_value _ _ _) fun ⟨ctx2, is1⟩ =>
      noMulti_bind (noMulti_free_val _ _) fun _ => noMulti_ok _

theorem noMulti_free_return_register_loop (locals : List ValueLocation) (regs : Nat)
    (stack : List StackValue) : NoMulti (free_return_register_loop locals regs stack) := by
  induction stack with
  | nil => exact noMulti_ok _
  | cons sv rest ih =>
    unfold free_return_register_loop
    refine noMulti_bind ih fun x => ?_
    obtain ⟨regs', rest', insts⟩ := x
    dsimp only
    split
    · split
      · exact noMulti_bind (noMulti_takeBits _) fun ⟨scratch, regs''⟩ => noMulti_ok _
      · exact noMulti_ok _
    · exact noMulti_ok _

theorem noMulti_free_return_register (ctx : Context) (count : Nat) :
    NoMulti (free_return_register ctx count) := by
  unfold free_return_register
  by_cases h : count = 0
  · rw [if_pos h]; exact noMulti_ok _
  · rw [if_neg h]
    exact noMulti_bind (noMulti_free_return_register_loop _ _ _)
      fun ⟨regs, stack, insts⟩ => noMulti_ok _

theorem noMulti_pass_stack_args (ctx : Context) (slots : List Nat) :
    NoMulti (pass_stack_args ctx slots) := by
  induction slots generalizing ctx with
  | nil => exact noMulti_ok _
  | cons slot rest ih =>
    unfold pass_stack_args
    exact noMulti_bind (noMulti_pop_i32_into _ _) fun ⟨ctx1, is0⟩ =>
      noMulti_bind (ih ctx1) fun ⟨ctx2, is1⟩ => noMulti_ok _

theorem noMulti_pass_reg_args (ctx : Context) (regsArgs : List GPR) :
    NoMulti (pass_reg_args ctx regsArgs) := by
  induction regsArgs generalizing ctx with
  | nil => exact noMulti_ok _
  | cons reg rest ih =>
    unfold pass_reg_args
    exact noMulti_bind (noMulti_pop_i32_into _ _) fun ⟨ctx1, is0⟩ =>
      noMulti_bind (ih ctx1) fun ⟨ctx2, is1⟩ => noMulti_ok _

theorem noMulti_pass_outgoing_args (ctx : Context) (arity : Nat) :
    NoMulti (pass_outgoing_args ctx arity) := by
  unfold pass_outgoing_args
  split
  dsimp only
  split
  · refine noMulti_bind (noMulti_pass_stack_args _ _) fun ⟨ctx1, is⟩ => ?_
    dsimp only
    refine noMulti_pure_bind ?_
    dsimp only
    exact noMulti_bind (noMulti_pass_reg_args _ _) fun d => noMulti_ok _
  · refine noMulti_pure_bind ?_
    dsimp only
    exact noMulti_bind (noMulti_pass_reg_args _ _) fun d => noMulti_ok _

end Backend

namespace Backend

/-- C9: call_direct rejects any return arity other than 0 or 1 up front (the
model's error return corresponds to the panicking assertion, before anything
is emitted or mutated), and for return arity 0 or 1 that check never fires:
no execution of call_direct can produce the multipleReturn abort. -/
theorem c9_return_arity_check :
    (∀ (ctx : Context) (index arg_arity return_arity : Nat), 2 ≤ return_arity →
      call_direct ctx index arg_arity return_arity = .error .multipleReturn) ∧
    (∀ (ctx : Context) (index arg_arity return_arity : Nat),
      return_arity = 0 ∨ return_arity = 1 →
      call_direct ctx index arg_arity return_arity ≠ .error .multipleReturn) := by
  constructor
  · intro ctx index arg_arity return_arity h
    unfold call_direct
    rw [if_neg (by omega)]
  · intro ctx index arg_arity return_arity h hcontra
    have hNM : NoMulti (call_direct ctx index arg_arity return_arity) := by
      unfold call_direct
      rw [if_pos h]
      split
      refine noMulti_bind (noMulti_free_return_register _ _) fun x => ?_
      obtain ⟨ctx2, frrInsts⟩ := x
      dsimp only
      refine noMulti_bind (noMulti_pass_outgoing_args _ _) fun y => ?_
      obtain ⟨cl, ctx3, poaInsts⟩ := y
      dsimp only
      split
      · exact noMulti_error _ (by decide)
      · exact noMulti_ok _
    exact hNM .multipleReturn hcontra rfl

/-- Witness for C9: a three-value return is rejected, a single-value return is
not rejected by the arity check. -/
theorem c9_witness :
    (2 ≤ 3 ∧ call_direct ⟨3072, [], [], 0, [55]⟩ 0 0 3 = .error .multipleReturn) ∧
    ((1 = 0 ∨ 1 = 1) ∧
      call_direct ⟨3072, [], [], 0, [55]⟩ 0 0 1 ≠ .error .multipleReturn) :=
  ⟨⟨by omega, c9_return_arity_check.1 ⟨3072, [], [], 0, [55]⟩ 0 0 3 (by omega)⟩,
   ⟨Or.inr rfl, c9_return_arity_check.2 ⟨3072, [], [], 0, [55]⟩ 0 0 1 (Or.inr rfl)⟩⟩

/-- The second component of save_volatile is the push of each saved register,
in saving order. -/
theorem save_volatile_snd (ctx : Context) :
    (save_volatile ctx).2 = (save_volatile ctx).1.map Inst.pushR := rfl

/-- Decomposition of a successful pass_outgoing_args: the cleanup record holds
num_stack_args = arity - 6 and the saved volatiles, and the emitted code starts
with the save pushes. -/
theorem pass_outgoing_args_shape (ctx : Context) (arity : Nat) (cl : CallCleanup)
    (ctx' : Context) (insts : List Inst)
    (h : pass_outgoing_args ctx arity = .ok (cl, ctx', insts)) :
    cl.stack_depth = arity - 6 ∧
    cl.restore_registers = (save_volatile ctx).1 ∧
    ∃ argInsts, insts = (save_volatile ctx).1.map Inst.pushR ++ argInsts := by
  unfold pass_outgoing_args at h
  rcases hsv : save_volatile ctx with ⟨saved, saveInsts⟩
  rw [hsv] at h
  dsimp only at h
  have hsaveInsts : saveInsts = saved.map Inst.pushR := by
    have := save_volatile_snd ctx
    rw [hsv] at this
    simpa using this
  by_cases hn : arity - ARGS_IN_GPRS.length > 0
  · rw [if_pos hn] at h
    obtain ⟨⟨ctxa, isa⟩, h1, h2⟩ := except_bind_ok _ _ _ h
    rw [pure_bind] at h2
    dsimp only at h2
    obtain ⟨⟨ctxb, regInsts⟩, h3, h4⟩ := except_bind_ok _ _ _ h2
    have h5 : cl = ⟨saved, arity - ARGS_IN_GPRS.length⟩ ∧
        insts = saveInsts ++ (Inst.subRspImm (((arity - ARGS_IN_GPRS.length) * WORD_SIZE : Nat) : Int) :: isa) ++ regInsts := by
      cases h4
      exact ⟨rfl, rfl⟩
    obtain ⟨hcl, hinsts⟩ := h5
    subst hcl hinsts hsaveInsts
    refine ⟨rfl, rfl, ?_⟩
    exact ⟨Inst.subRspImm (((arity - ARGS_IN_GPRS.length) * WORD_SIZE : Nat) : Int) ::
        isa ++ regInsts, by simp⟩
  · rw [if_neg hn] at h
    rw [pure_bind] at h
    dsimp only at h
    obtain ⟨⟨ctxb, regInsts⟩, h3, h4⟩ := except_bind_ok _ _ _ h
    have h5 : cl = ⟨saved, arity - ARGS_IN_GPRS.length⟩ ∧
        insts = saveInsts ++ [] ++ regInsts := by
      cases h4
      exact ⟨rfl, rfl⟩
    obtain ⟨hcl, hinsts⟩ := h5
    subst hcl hinsts hsaveInsts
    refine ⟨rfl, rfl, ?_⟩
    exact ⟨regInsts, by simp⟩

end Backend

namespace Backend

/-- C4 counterexample: a call with return arity 1 does not leave Temp(RAX) on
top of the abstract operand stack; call_direct itself never pushes the return
value (that is the separate push_return_value primitive, invoked by the
driver). -/
theorem c4_counterexample :
    call_direct ⟨3072, [], [], 0, [55]⟩ 0 0 1 =
      .ok (⟨3072, [], [], 0, [55]⟩, [.callLabel 55]) ∧
    (⟨3072, [], [], 0, [55]⟩ : Context).stack.head? ≠ some (.Temp RAX) := by
  refine ⟨by decide, by decide⟩

/-- C4 as amended: for every successful call_direct with return arity 1, the
emitted code decomposes as the register-freeing prefix, the save pushes of the
volatile registers (in saving order), the argument moves, the call itself,
then the cleanup: add rsp, 8 * num_stack_args with num_stack_args =
arg_arity - 6 (omitted when zero) followed by pops of the saved volatiles in
reverse order of saving.  call_direct does not itself push Temp(RAX); the
subsequent push_return_value makes Temp(RAX) the top of the operand stack. -/
theorem c4_call_cleanup (ctx : Context) (index arg_arity : Nat)
    (ctx' : Context) (insts : List Inst)
    (h : call_direct ctx index arg_arity 1 = .ok (ctx', insts)) :
    ∃ (preInsts argInsts : List Inst) (saved : List GPR) (label : Nat),
      insts = preInsts ++ (saved.map Inst.pushR ++ argInsts) ++ [Inst.callLabel label] ++
        ((if arg_arity - 6 > 0 then
            [Inst.addRspImm (((arg_arity - 6) * 8 : Nat) : Int)] else []) ++
          saved.reverse.map Inst.popR) ∧
      (push_return_value ctx').stack.head? = some (StackValue.Temp RAX) := by
  unfold call_direct at h
  rw [if_pos (Or.inr rfl)] at h
  rcases hfar : free_arg_registers ctx arg_arity with ⟨ctx1, farInsts⟩
  rw [hfar] at h
  dsimp only at h
  obtain ⟨⟨ctx2, frrInsts⟩, h1, h2⟩ := except_bind_ok _ _ _ h
  dsimp only at h2
  obtain ⟨⟨cl, ctx3, poaInsts⟩, h3, h4⟩ := except_bind_ok _ _ _ h2
  dsimp only at h4
  cases hlbl : ctx3.funcStarts.get? index with
  | none =>
    rw [hlbl] at h4
    exact absurd h4 (by simp)
  | some label =>
    rw [hlbl] at h4
    obtain ⟨hsd, hrestore, argInsts, hpoa⟩ := pass_outgoing_args_shape _ _ _ _ _ h3
    have hctx : ctx' = (post_call_cleanup ctx3 cl).1 ∧
        insts = farInsts ++ frrInsts ++ poaInsts ++ [Inst.callLabel label] ++
          (post_call_cleanup ctx3 cl).2 := by
      cases h4
      exact ⟨rfl, rfl⟩
    obtain ⟨hctx', hinsts⟩ := hctx
    refine ⟨farInsts ++ frrInsts, argInsts, cl.restore_registers, label, ?_, rfl⟩
    have hclean : (post_call_cleanup ctx3 cl).2 =
        (if arg_arity - 6 > 0 then
          [Inst.addRspImm (((arg_arity - 6) * 8 : Nat) : Int)] else []) ++
        cl.restore_registers.reverse.map Inst.popR := by
      unfold post_call_cleanup
      rw [hsd]
      rfl
    rw [hinsts, hclean, hpoa, hrestore]

/-- Witness for the amended C4 at a concrete zero-argument call. -/
theorem c4_witness :
    call_direct ⟨3072, [], [], 0, [55]⟩ 0 0 1 =
      .ok (⟨3072, [], [], 0, [55]⟩, [.callLabel 55]) ∧
    (∃ (preInsts argInsts : List Inst) (saved : List GPR) (label : Nat),
      [Inst.callLabel 55] =
        preInsts ++ (saved.map Inst.pushR ++ argInsts) ++ [Inst.callLabel label] ++
        ((if (0 : Nat) - 6 > 0 then
            [Inst.addRspImm ((((0 : Nat) - 6) * 8 : Nat) : Int)] else []) ++
          saved.reverse.map Inst.popR) ∧
      (push_return_value ⟨3072, [], [], 0, [55]⟩).stack.head? =
        some (StackValue.Temp RAX)) :=
  ⟨by decide,
   c4_call_cleanup ⟨3072, [], [], 0, [55]⟩ 0 0 ⟨3072, [], [], 0, [55]⟩
     [.callLabel 55] (by decide)⟩

end Backend

namespace Backend

/-! Infrastructure for the register-pool invariant (C1). -/

theorem tempOkB_temp_iff (bits : Nat) (g : GPR) :
    tempOkB bits (.Temp g) = true ↔ (bits.testBit g = false ∧ g ∈ raxOrScratch) := by
  simp [tempOkB]

theorem tempOkB_local (bits : Nat) (i : Nat) : tempOkB bits (.Local i) = true := rfl

theorem tempOkB_pop (bits : Nat) : tempOkB bits .Pop = true := rfl

theorem mem_raxOrScratch_lt (g : GPR) (h : g ∈ raxOrScratch) : g < 16 := by
  have h' : g = 0 ∨ g = 10 ∨ g = 11 := by
    simpa [raxOrScratch, RAX, R10, R11] using h
  rcases h' with rfl | rfl | rfl <;> decide

theorem mem_tempRegs (stack : List StackValue) (g : GPR) :
    g ∈ tempRegs stack ↔ StackValue.Temp g ∈ stack := by
  unfold tempRegs
  rw [List.mem_filterMap]
  constructor
  · rintro ⟨sv, hsv, hmap⟩
    cases sv with
    | Temp g' =>
      have : g' = g := by
        simpa using hmap
      subst this
      exact hsv
    | Local i => exact absurd hmap (by simp)
    | Pop => exact absurd hmap (by simp)
  · intro h
    exact ⟨.Temp g, h, rfl⟩

theorem tempRegs_cons_temp (g : GPR) (stack : List StackValue) :
    tempRegs (.Temp g :: stack) = g :: tempRegs stack := rfl

theorem tempRegs_cons_local (i : Nat) (stack : List StackValue) :
    tempRegs (.Local i :: stack) = tempRegs stack := rfl

theorem tempRegs_cons_pop (stack : List StackValue) :
    tempRegs (.Pop :: stack) = tempRegs stack := rfl

/-- The pool only loses bits. -/
def PoolShrink (bits bits' : Nat) : Prop :=
  ∀ g, bits'.testBit g = true → bits.testBit g = true

theorem poolShrink_refl (bits : Nat) : PoolShrink bits bits := fun _ h => h

theorem poolShrink_trans {a b c : Nat} (h1 : PoolShrink a b) (h2 : PoolShrink b c) :
    PoolShrink a c := fun g h => h1 g (h2 g h)

theorem poolShrink_markUsed (bits : Nat) (g : GPR) :
    PoolShrink bits (markUsed bits g) := by
  intro i hi
  unfold markUsed at hi
  rw [Nat.testBit_land] at hi
  simp only [Bool.and_eq_true] at hi
  exact hi.1

theorem tempOkB_of_shrink (bits bits' : Nat) (sv : StackValue)
    (hsh : PoolShrink bits bits') (h : tempOkB bits sv = true) :
    tempOkB bits' sv = true := by
  cases sv with
  | Temp g =>
    obtain ⟨hfree, hset⟩ := (tempOkB_temp_iff _ _).1 h
    refine (tempOkB_temp_iff _ _).2 ⟨?_, hset⟩
    cases hb : bits'.testBit g with
    | false => rfl
    | true => exact absurd (hsh g hb) (by rw [hfree]; simp)
  | Local i => rfl
  | Pop => rfl

theorem takeBits_wf (bits : Nat) (g : GPR) (bits' : Nat)
    (hlt : bits < 65536)
    (hpool : ∀ h < 16, bits.testBit h = true → h ∈ raxOrScratch)
    (h : takeBits bits = .ok (g, bits')) :
    bits' < 65536 ∧ PoolShrink bits bits' ∧
    (∀ h < 16, bits'.testBit h = true → h ∈ raxOrScratch) ∧
    bits.testBit g = true ∧ g ∈ raxOrScratch ∧ bits'.testBit g = false := by
  obtain ⟨hb, hg16, hbits'⟩ := takeBits_ok_spec _ _ _ h
  subst hbits'
  have hsh : PoolShrink bits (markUsed bits g) := poolShrink_markUsed bits g
  refine ⟨markUsed_lt _ _ hlt, hsh, fun i hi ht => hpool i hi (hsh i ht), hb,
    hpool g hg16 hb, ?_⟩
  rw [testBit_markUsed _ _ _ hg16]
  simp

theorem releaseBits_wf (bits : Nat) (g : GPR) (bits' : Nat)
    (hlt : bits < 65536)
    (hpool : ∀ h < 16, bits.testBit h = true → h ∈ raxOrScratch)
    (hset : g ∈ raxOrScratch)
    (h : releaseBits bits g = .ok bits') :
    bits' < 65536 ∧
    (∀ h < 16, bits'.testBit h = true → h ∈ raxOrScratch) ∧
    (∀ r, r ≠ g → bits'.testBit r = bits.testBit r) ∧
    bits'.testBit g = true := by
  obtain ⟨hfree, hb'⟩ := releaseBits_ok_spec _ _ _ h
  subst hb'
  have hg16 := mem_raxOrScratch_lt g hset
  refine ⟨lor_shift_lt _ _ hlt hg16, ?_, ?_, ?_⟩
  · intro r hr ht
    rw [testBit_lor_shift] at ht
    simp only [Bool.or_eq_true] at ht
    rcases ht with ht | ht
    · exact hpool r hr ht
    · have : r = g := of_decide_eq_true ht
      rw [this]
      exact hset
  · intro r hrg
    rw [testBit_lor_shift]
    simp [hrg]
  · rw [testBit_lor_shift]
    simp

theorem markUsed_lor_self (bits : Nat) (g : GPR) (hg : bits.testBit g = true)
    (hg16 : g < 16) (hlt : bits < 65536) :
    (markUsed bits g) ||| (1 <<< g) = bits := by
  apply Nat.eq_of_testBit_eq
  intro i
  rw [testBit_lor_shift, testBit_markUsed _ _ _ hg16]
  by_cases hig : i = g
  · subst hig
    simp [hg]
  · by_cases hi : i < 16
    · simp [hig, hi]
    · have : bits.testBit i = false :=
        testBit_of_ge_16 _ _ hlt (by omega)
      simp [hig, hi, this]

theorem valueOk_mono (c c' : Context) (v : Value) (hok : ValueOk c v)
    (hsh : PoolShrink c.regs c'.regs)
    (hst : ∀ sv ∈ c'.stack, sv ∈ c.stack) : ValueOk c' v := by
  cases v with
  | Local i => trivial
  | Temp g =>
    obtain ⟨hfree, hset, hmem⟩ := hok
    refine ⟨?_, hset, fun hc => hmem (hst _ hc)⟩
    cases hb : c'.regs.testBit g with
    | false => rfl
    | true => exact absurd (hsh g hb) (by rw [hfree]; simp)

end Backend

namespace Backend

theorem wf_pop_i32 (c : Context) (v : Value) (c' : Context) (insts : List Inst)
    (hwf : WF c) (h : pop_i32 c = .ok (v, c', insts)) :
    WF c' ∧ ValueOk c' v ∧ c'.locals = c.locals ∧ PoolShrink c.regs c'.regs ∧
    (∀ sv ∈ c'.stack, sv ∈ c.stack) ∧
    (∀ w, ValueOk c w → ValueOk c' w ∧
      ∀ r0 r', w = Value.Temp r0 → v = Value.Temp r' → r0 ≠ r') := by
  obtain ⟨hlt, hpool, htemps, hnodup, hlocals⟩ := hwf
  obtain ⟨regs, stack, locals, depth, fs⟩ := c
  cases stack with
  | nil =>
    simp only [pop_i32] at h
    exact absurd h (by simp)
  | cons sv rest =>
    cases sv with
    | Local loc =>
      simp only [pop_i32] at h
      cases h
      refine ⟨⟨hlt, hpool, fun sv hsv => htemps sv (List.mem_cons_of_mem _ hsv),
          hnodup, hlocals⟩,
        trivial, rfl, poolShrink_refl _, fun sv hsv => List.mem_cons_of_mem _ hsv, ?_⟩
      intro w hw
      constructor
      · exact valueOk_mono _ _ _ hw (poolShrink_refl _)
          (fun sv hsv => List.mem_cons_of_mem _ hsv)
      · intro r0 r' hw' hv'
        exact absurd hv' (by simp)
    | Temp reg =>
      simp only [pop_i32] at h
      cases h
      have hhead : tempOkB regs (.Temp reg) = true := htemps _ (List.mem_cons_self _ _)
      obtain ⟨hfree, hset⟩ := (tempOkB_temp_iff _ _).1 hhead
      have hnodup' := hnodup
      rw [tempRegs_cons_temp] at hnodup'
      obtain ⟨hnotail, hrest⟩ := List.nodup_cons.1 hnodup'
      refine ⟨⟨hlt, hpool, fun sv hsv => htemps sv (List.mem_cons_of_mem _ hsv),
          hrest, hlocals⟩, ?_, rfl, poolShrink_refl _,
        fun sv hsv => List.mem_cons_of_mem _ hsv, ?_⟩
      · exact ⟨hfree, hset, fun hc => hnotail ((mem_tempRegs _ _).2 hc)⟩
      · intro w hw
        constructor
        · exact valueOk_mono _ _ _ hw (poolShrink_refl _)
            (fun sv hsv => List.mem_cons_of_mem _ hsv)
        · intro r0 r' hw' hv'
          subst hw'
          have hr' : reg = r' := by
            simpa using hv'
          subst hr'
          obtain ⟨_, _, hmem⟩ := hw
          intro hcon
          subst hcon
          exact hmem (List.mem_cons_self _ _)
    | Pop =>
      simp only [pop_i32] at h
      by_cases hd : depth = 0
      · rw [if_pos hd] at h
        exact absurd h (by simp)
      · rw [if_neg hd] at h
        cases htake : takeBits regs with
        | error e =>
          rw [htake] at h
          exact absurd h (by simp [Bind.bind, Except.bind])
        | ok p =>
          obtain ⟨g, bits'⟩ := p
          rw [htake] at h
          cases h
          obtain ⟨hlt', hsh, hpool', hb, hgset, hb'⟩ :=
            takeBits_wf regs g bits' hlt hpool htake
          have hrest : (tempRegs rest).Nodup := hnodup
          refine ⟨⟨hlt', hpool',
              fun sv hsv => tempOkB_of_shrink _ _ _ hsh
                (htemps sv (List.mem_cons_of_mem _ hsv)),
              hrest, hlocals⟩, ?_, rfl, hsh,
            fun sv hsv => List.mem_cons_of_mem _ hsv, ?_⟩
          · refine ⟨hb', hgset, fun hc => ?_⟩
            have := (tempOkB_temp_iff regs g).1 (htemps _ (List.mem_cons_of_mem _ hc))
            rw [this.1] at hb
            exact Bool.false_ne_true hb
          · intro w hw
            constructor
            · exact valueOk_mono _ _ _ hw hsh
                (fun sv hsv => List.mem_cons_of_mem _ hsv)
            · intro r0 r' hw' hv'
              subst hw'
              have hr' : g = r' := by
                simpa using hv'
              subst hr'
              obtain ⟨hfree0, _, _⟩ := hw
              intro hcon
              subst hcon
              rw [hfree0] at hb
              exact Bool.false_ne_true hb

theorem wf_push_i32 (c : Context) (v : Value) (c' : Context) (insts : List Inst)
    (hwf : WF c) (hok : ValueOk c v) (h : push_i32 c v = .ok (c', insts)) :
    WF c' ∧ c'.locals = c.locals ∧
    (∀ w, ValueOk c w →
      (∀ r0 gv, w = Value.Temp r0 → v = Value.Temp gv → r0 ≠ gv) → ValueOk c' w) := by
  obtain ⟨hlt, hpool, htemps, hnodup, hlocals⟩ := hwf
  cases v with
  | Local loc =>
    simp only [push_i32] at h
    cases h
    refine ⟨⟨hlt, hpool, ?_, hnodup, hlocals⟩, rfl, ?_⟩
    · intro sv hsv
      rcases List.mem_cons.1 hsv with rfl | hsv
      · exact tempOkB_local _ _
      · exact htemps sv hsv
    · intro w hw _
      cases w with
      | Local i => trivial
      | Temp r0 =>
        obtain ⟨h1, h2, h3⟩ := hw
        refine ⟨h1, h2, fun hc => ?_⟩
        rcases List.mem_cons.1 hc with hc | hc
        · exact absurd hc (by simp)
        · exact h3 hc
  | Temp gpr =>
    obtain ⟨hfree, hset, hmem⟩ := hok
    simp only [push_i32] at h
    by_cases hfc : freeCount c.regs ≥ 1
    · rw [if_pos hfc] at h
      cases h
      refine ⟨⟨hlt, hpool, ?_, ?_, hlocals⟩, rfl, ?_⟩
      · intro sv hsv
        rcases List.mem_cons.1 hsv with rfl | hsv
        · exact (tempOkB_temp_iff _ _).2 ⟨hfree, hset⟩
        · exact htemps sv hsv
      · rw [tempRegs_cons_temp]
        exact List.nodup_cons.2 ⟨fun hc => hmem ((mem_tempRegs _ _).1 hc), hnodup⟩
      · intro w hw hdist
        cases w with
        | Local i => trivial
        | Temp r0 =>
          obtain ⟨h1, h2, h3⟩ := hw
          have hne : r0 ≠ gpr := hdist r0 gpr rfl rfl
          refine ⟨h1, h2, fun hc => ?_⟩
          rcases List.mem_cons.1 hc with hc | hc
          · exact hne (by simpa using hc)
          · exact h3 hc
    · rw [if_neg hfc] at h
      cases hrel : releaseBits c.regs gpr with
      | error e =>
        rw [hrel] at h
        exact absurd h (by simp [Bind.bind, Except.bind])
      | ok bits' =>
        rw [hrel] at h
        cases h
        obtain ⟨hlt', hpool', hsame, hbit⟩ := releaseBits_wf _ _ _ hlt hpool hset hrel
        refine ⟨⟨hlt', hpool', ?_, hnodup, hlocals⟩, rfl, ?_⟩
        · intro sv hsv
          rcases List.mem_cons.1 hsv with rfl | hsv
          · exact tempOkB_pop _
          · cases sv with
            | Temp r =>
              obtain ⟨hr, hrset⟩ := (tempOkB_temp_iff _ _).1 (htemps _ hsv)
              have hne : r ≠ gpr := by
                intro hcon
                subst hcon
                exact hmem hsv
              exact (tempOkB_temp_iff _ _).2 ⟨by rw [hsame r hne]; exact hr, hrset⟩
            | Local i => exact tempOkB_local _ _
            | Pop => exact tempOkB_pop _
        · intro w hw hdist
          cases w with
          | Local i => trivial
          | Temp r0 =>
            obtain ⟨h1, h2, h3⟩ := hw
            have hne : r0 ≠ gpr := hdist r0 gpr rfl rfl
            refine ⟨by rw [hsame r0 hne]; exact h1, h2, fun hc => ?_⟩
            rcases List.mem_cons.1 hc with hc | hc
            · exact absurd hc (by simp)
            · exact h3 hc

theorem wf_free_val (c : Context) (v : Value) (c' : Context)
    (hwf : WF c) (hok : ValueOk c v) (h : free_val c v = .ok c') :
    WF c' ∧ c'.stack = c.stack ∧ c'.locals = c.locals ∧
    (∀ w, ValueOk c w →
      (∀ r0 gv, w = Value.Temp r0 → v = Value.Temp gv → r0 ≠ gv) → ValueOk c' w) := by
  obtain ⟨hlt, hpool, htemps, hnodup, hlocals⟩ := hwf
  cases v with
  | Local loc =>
    simp only [free_val] at h
    cases h
    exact ⟨⟨hlt, hpool, htemps, hnodup, hlocals⟩, rfl, rfl, fun w hw _ => hw⟩
  | Temp reg =>
    obtain ⟨hfree, hset, hmem⟩ := hok
    simp only [free_val] at h
    cases hrel : releaseBits c.regs reg with
    | error e =>
      rw [hrel] at h
      exact absurd h (by simp [Bind.bind, Except.bind])
    | ok bits' =>
      rw [hrel] at h
      cases h
      obtain ⟨hlt', hpool', hsame, hbit⟩ := releaseBits_wf _ _ _ hlt hpool hset hrel
      refine ⟨⟨hlt', hpool', ?_, hnodup, hlocals⟩, rfl, rfl, ?_⟩
      · intro sv hsv
        cases sv with
        | Temp r =>
          obtain ⟨hr, hrset⟩ := (tempOkB_temp_iff _ _).1 (htemps _ hsv)
          have hne : r ≠ reg := by
            intro hcon
            subst hcon
            exact hmem hsv
          exact (tempOkB_temp_iff _ _).2 ⟨by rw [hsame r hne]; exact hr, hrset⟩
        | Local i => exact tempOkB_local _ _
        | Pop => exact tempOkB_pop _
      · intro w hw hdist
        cases w with
        | Local i => trivial
        | Temp r0 =>
          obtain ⟨h1, h2, h3⟩ := hw
          have hne : r0 ≠ reg := hdist r0 reg rfl rfl
          exact ⟨by rw [hsame r0 hne]; exact h1, h2, h3⟩

end Backend

namespace Backend

theorem copy_value_id (c : Context) (src dst : ValueLocation) (c' : Context)
    (insts : List Inst) (hlt : c.regs < 65536)
    (h : copy_value c src dst = .ok (c', insts)) : c' = c := by
  cases src with
  | Reg inr =>
    cases dst with
    | Reg outr =>
      simp only [copy_value] at h
      by_cases hne : inr ≠ outr
      · rw [if_pos hne] at h
        cases h
        rfl
      · rw [if_neg hne] at h
        cases h
        rfl
    | Stack o =>
      simp only [copy_value] at h
      cases h
      rfl
  | Stack o =>
    cases dst with
    | Reg outr =>
      simp only [copy_value] at h
      cases h
      rfl
    | Stack o' =>
      simp only [copy_value] at h
      by_cases hne : adjusted_offset c o ≠ adjusted_offset c o'
      · rw [if_pos hne] at h
        cases htake : takeBits c.regs with
        | error e =>
          rw [htake] at h
          exact absurd h (by simp [Bind.bind, Except.bind])
        | ok p =>
          obtain ⟨g, bits⟩ := p
          rw [htake] at h
          obtain ⟨hb, hg16, hbits⟩ := takeBits_ok_spec _ _ _ htake
          subst hbits
          have hfree : (markUsed c.regs g).testBit g = false := by
            rw [testBit_markUsed _ _ _ hg16]
            simp
          simp only [Bind.bind, Except.bind] at h
          rw [releaseBits_ok_of_not_free _ _ hfree] at h
          cases h
          have hre : markUsed c.regs g ||| (1 <<< g) = c.regs :=
            markUsed_lor_self _ _ hb hg16 hlt
          rw [hre]
      · rw [if_neg hne] at h
        cases h
        rfl

theorem wf_pop_i32_into (c : Context) (dst : ValueLocation) (c' : Context)
    (insts : List Inst) (hwf : WF c) (h : pop_i32_into c dst = .ok (c', insts)) :
    WF c' ∧ c'.locals = c.locals := by
  unfold pop_i32_into at h
  obtain ⟨⟨v, c1, is0⟩, h1, h2⟩ := except_bind_ok _ _ _ h
  dsimp only at h2
  obtain ⟨⟨c2, is1⟩, h3, h4⟩ := except_bind_ok _ _ _ h2
  dsimp only at h4
  obtain ⟨c3, h5, h6⟩ := except_bind_ok _ _ _ h4
  cases h6
  obtain ⟨hwf1, hok1, hloc1, _, _, _⟩ := wf_pop_i32 _ _ _ _ hwf h1
  have hc2 : c2 = c1 := copy_value_id _ _ _ _ _ hwf1.1 h3
  subst hc2
  obtain ⟨hwf3, _, hloc3, _⟩ := wf_free_val _ _ _ hwf1 hok1 h5
  exact ⟨hwf3, by rw [hloc3, hloc1]⟩

theorem wf_into_reg (c : Context) (v : Value) (r : GPR) (c' : Context)
    (insts : List Inst) (hwf : WF c) (h : into_reg c v = .ok (r, c', insts)) :
    WF c' ∧ c'.stack = c.stack ∧ c'.locals = c.locals ∧ PoolShrink c.regs c'.regs := by
  obtain ⟨hlt, hpool, htemps, hnodup, hlocals⟩ := hwf
  unfold into_reg at h
  cases hloc : Value.location v c.locals with
  | Stack offset =>
    simp only [hloc] at h
    cases htake : takeBits c.regs with
    | error e =>
      rw [htake] at h
      exact absurd h (by simp [Bind.bind, Except.bind])
    | ok p =>
      obtain ⟨g, bits⟩ := p
      rw [htake] at h
      cases h
      obtain ⟨hlt', hsh, hpool', _, _, _⟩ := takeBits_wf _ _ _ hlt hpool htake
      exact ⟨⟨hlt', hpool',
        fun sv hsv => tempOkB_of_shrink _ _ _ hsh (htemps sv hsv),
        hnodup, hlocals⟩, rfl, rfl, hsh⟩
  | Reg reg =>
    simp only [hloc] at h
    cases h
    exact ⟨⟨hlt, hpool, htemps, hnodup, hlocals⟩, rfl, rfl, poolShrink_refl _⟩

theorem wf_into_temp_reg (c : Context) (v : Value) (r : GPR) (c' : Context)
    (insts : List Inst) (hwf : WF c) (hok : ValueOk c v)
    (h : into_temp_reg c v = .ok (r, c', insts)) :
    WF c' ∧ ValueOk c' (.Temp r) ∧ c'.stack = c.stack ∧ c'.locals = c.locals ∧
    ((c' = c ∧ v = .Temp r) ∨
      (c.regs.testBit r = true ∧ c'.regs = markUsed c.regs r)) := by
  obtain ⟨hlt, hpool, htemps, hnodup, hlocals⟩ := hwf
  cases v with
  | Temp reg =>
    simp only [into_temp_reg] at h
    cases h
    exact ⟨⟨hlt, hpool, htemps, hnodup, hlocals⟩, hok, rfl, rfl, Or.inl ⟨rfl, rfl⟩⟩
  | Local loc =>
    simp only [into_temp_reg] at h
    cases htake : takeBits c.regs with
    | error e =>
      rw [htake] at h
      exact absurd h (by simp [Bind.bind, Except.bind])
    | ok p =>
      obtain ⟨scratch, bits⟩ := p
      rw [htake] at h
      simp only [Bind.bind, Except.bind] at h
      obtain ⟨hb0, hg16, hbits⟩ := takeBits_ok_spec _ _ _ htake
      subst hbits
      obtain ⟨hlt', hsh, hpool', hb, hbset, hb'⟩ := takeBits_wf _ _ _ hlt hpool htake
      have hwf' : WF { c with regs := markUsed c.regs scratch } ∧
          ValueOk { c with regs := markUsed c.regs scratch } (.Temp scratch) := by
        constructor
        · exact ⟨hlt', hpool',
            fun sv hsv => tempOkB_of_shrink _ _ _ hsh (htemps sv hsv),
            hnodup, hlocals⟩
        · refine ⟨hb', hbset, fun hc => ?_⟩
          have := (tempOkB_temp_iff c.regs scratch).1 (htemps _ hc)
          rw [this.1] at hb
          exact Bool.false_ne_true hb
      cases hloc : local_location c.locals loc with
      | Stack offset =>
        simp only [hloc] at h
        cases h
        exact ⟨hwf'.1, hwf'.2, rfl, rfl, Or.inr ⟨hb, rfl⟩⟩
      | Reg reg =>
        simp only [hloc] at h
        cases h
        exact ⟨hwf'.1, hwf'.2, rfl, rfl, Or.inr ⟨hb, rfl⟩⟩

theorem wf_i32_binop (instRR : GPR → GPR → Inst) (instRM : GPR → Int → Inst)
    (c : Context) (c' : Context) (insts : List Inst) (hwf : WF c)
    (h : i32_binop instRR instRM c = .ok (c', insts)) : WF c' := by
  unfold i32_binop at h
  obtain ⟨⟨op0, c1, is0⟩, h1, h2⟩ := except_bind_ok _ _ _ h
  dsimp only at h2
  obtain ⟨⟨tmp, c2, is1⟩, h3, h4⟩ := except_bind_ok _ _ _ h2
  dsimp only at h4
  obtain ⟨⟨op1, c3, is2⟩, h5, h6⟩ := except_bind_ok _ _ _ h4
  dsimp only at h6
  obtain ⟨c4, h7, h8⟩ := except_bind_ok _ _ _ h6
  cases h8
  obtain ⟨hwf1, hok0, _, _, _, _⟩ := wf_pop_i32 _ _ _ _ hwf h1
  obtain ⟨hwf2, hokT, _, _, _, htrans2⟩ := wf_pop_i32 _ _ _ _ hwf1 h3
  obtain ⟨hok0₂, hdist0T⟩ := htrans2 op0 hok0
  obtain ⟨hwf3, hokOp1, hst3, hlc3, hcase⟩ := wf_into_temp_reg _ _ _ _ _ hwf2 hokT h5
  have hok0₃ : ValueOk c3 op0 := by
    rcases hcase with ⟨rfl, _⟩ | ⟨hfree1, hregs3⟩
    · exact hok0₂
    · refine valueOk_mono _ _ _ hok0₂ ?_ ?_
      · rw [hregs3]
        exact poolShrink_markUsed _ _
      · rw [hst3]
        exact fun sv hsv => hsv
  have hne : ∀ r0, op0 = Value.Temp r0 → r0 ≠ op1 := by
    intro r0 hr0
    rcases hcase with ⟨hceq, hveq⟩ | ⟨hfree1, _⟩
    · exact hdist0T r0 op1 hr0 hveq
    · subst hr0
      obtain ⟨htaken, _, _⟩ := hok0₂
      intro hcon
      subst hcon
      rw [htaken] at hfree1
      exact Bool.false_ne_true hfree1
  obtain ⟨hlt3, hpool3, htemps3, hnodup3, hlocals3⟩ := hwf3
  obtain ⟨hfOp1, hsOp1, hmOp1⟩ := hokOp1
  have hwf4 : WF { c3 with stack := .Temp op1 :: c3.stack } := by
    refine ⟨hlt3, hpool3, ?_, ?_, hlocals3⟩
    · intro sv hsv
      rcases List.mem_cons.1 hsv with rfl | hsv
      · exact (tempOkB_temp_iff _ _).2 ⟨hfOp1, hsOp1⟩
      · exact htemps3 sv hsv
    · rw [tempRegs_cons_temp]
      exact List.nodup_cons.2 ⟨fun hc => hmOp1 ((mem_tempRegs _ _).1 hc), hnodup3⟩
  have hok0₄ : ValueOk { c3 with stack := .Temp op1 :: c3.stack } op0 := by
    cases op0 with
    | Local i => trivial
    | Temp r0 =>
      obtain ⟨ht1, ht2, ht3⟩ := hok0₃
      refine ⟨ht1, ht2, fun hc => ?_⟩
      rcases List.mem_cons.1 hc with hc | hc
      · exact hne r0 rfl (by simpa using hc)
      · exact ht3 hc
  obtain ⟨hwf5, _, _, _⟩ := wf_free_val _ _ _ hwf4 hok0₄ h7
  exact hwf5

end Backend

namespace Backend

theorem wf_literal_i32 (c : Context) (imm : Int) (c' : Context) (insts : List Inst)
    (hwf : WF c) (h : literal_i32 c imm = .ok (c', insts)) : WF c' := by
  obtain ⟨hlt, hpool, htemps, hnodup, hlocals⟩ := hwf
  unfold literal_i32 at h
  cases htake : takeBits c.regs with
  | error e =>
    rw [htake] at h
    exact absurd h (by simp [Bind.bind, Except.bind])
  | ok p =>
    obtain ⟨g, bits⟩ := p
    rw [htake] at h
    simp only [Bind.bind, Except.bind] at h
    obtain ⟨hb0, hg16, hbits⟩ := takeBits_ok_spec _ _ _ htake
    subst hbits
    obtain ⟨hlt', hsh, hpool', hb, hbset, hb'⟩ := takeBits_wf _ _ _ hlt hpool htake
    obtain ⟨⟨c1, is1⟩, h1, h2⟩ := except_bind_ok _ _ _ h
    cases h2
    have hwfmid : WF { c with regs := markUsed c.regs g } :=
      ⟨hlt', hpool', fun sv hsv => tempOkB_of_shrink _ _ _ hsh (htemps sv hsv),
        hnodup, hlocals⟩
    have hok : ValueOk { c with regs := markUsed c.regs g } (.Temp g) := by
      refine ⟨hb', hbset, fun hc => ?_⟩
      have := (tempOkB_temp_iff c.regs g).1 (htemps _ hc)
      rw [this.1] at hb
      exact Bool.false_ne_true hb
    exact (wf_push_i32 _ _ _ _ hwfmid hok h1).1

theorem wf_get_local_i32 (c : Context) (k : Nat) (c' : Context) (insts : List Inst)
    (hwf : WF c) (h : get_local_i32 c k = .ok (c', insts)) : WF c' := by
  unfold get_local_i32 at h
  exact (wf_push_i32 _ _ _ _ hwf (by exact True.intro) h).1

theorem wf_set_local_i32 (c : Context) (k : Nat) (c' : Context) (insts : List Inst)
    (hwf : WF c) (h : set_local_i32 c k = .ok (c', insts)) : WF c' := by
  unfold set_local_i32 at h
  obtain ⟨⟨v, c1, is0⟩, h1, h2⟩ := except_bind_ok _ _ _ h
  dsimp only at h2
  obtain ⟨⟨c2, is1⟩, h3, h4⟩ := except_bind_ok _ _ _ h2
  dsimp only at h4
  obtain ⟨c3, h5, h6⟩ := except_bind_ok _ _ _ h4
  cases h6
  obtain ⟨hwf1, hok1, _, _, _, _⟩ := wf_pop_i32 _ _ _ _ hwf h1
  have hc2 : c2 = c1 := copy_value_id _ _ _ _ _ hwf1.1 h3
  subst hc2
  exact (wf_free_val _ _ _ hwf1 hok1 h5).1

theorem wf_relop_eq_i32 (c : Context) (c' : Context) (insts : List Inst)
    (hwf : WF c) (h : relop_eq_i32 c = .ok (c', insts)) : WF c' := by
  unfold relop_eq_i32 at h
  obtain ⟨⟨right, c1, is0⟩, h1, h2⟩ := except_bind_ok _ _ _ h
  dsimp only at h2
  obtain ⟨⟨left, c2, is1⟩, h3, h4⟩ := except_bind_ok _ _ _ h2
  dsimp only at h4
  obtain ⟨⟨result, bits⟩, h5, h6⟩ := except_bind_ok _ _ _ h4
  dsimp only at h6
  obtain ⟨⟨lreg, c4, is2⟩, h7, h8⟩ := except_bind_ok _ _ _ h6
  dsimp only at h8
  obtain ⟨⟨c5, is3⟩, h9, h10⟩ := except_bind_ok _ _ _ h8
  dsimp only at h10
  obtain ⟨c6, h11, h12⟩ := except_bind_ok _ _ _ h10
  obtain ⟨c7, h13, h14⟩ := except_bind_ok _ _ _ h12
  cases h14
  obtain ⟨hwf1, hokR, _, _, _, _⟩ := wf_pop_i32 _ _ _ _ hwf h1
  obtain ⟨hwf2, hokL, _, _, _, htrans2⟩ := wf_pop_i32 _ _ _ _ hwf1 h3
  obtain ⟨hokR2, hdistRL⟩ := htrans2 right hokR
  obtain ⟨hb0, hg16, hbits⟩ := takeBits_ok_spec _ _ _ h5
  subst hbits
  obtain ⟨hlt2, hpool2, htemps2, hnodup2, hlocals2⟩ := hwf2
  obtain ⟨hlt', hsh, hpool', hb, hbset, hb'⟩ := takeBits_wf _ _ _ hlt2 hpool2 h5
  have hwf3 : WF { c2 with regs := markUsed c2.regs result } :=
    ⟨hlt', hpool', fun sv hsv => tempOkB_of_shrink _ _ _ hsh (htemps2 sv hsv),
      hnodup2, hlocals2⟩
  have hokRes3 : ValueOk { c2 with regs := markUsed c2.regs result } (.Temp result) := by
    refine ⟨hb', hbset, fun hc => ?_⟩
    have := (tempOkB_temp_iff c2.regs result).1 (htemps2 _ hc)
    rw [this.1] at hb
    exact Bool.false_ne_true hb
  have hokL3 : ValueOk { c2 with regs := markUsed c2.regs result } left :=
    valueOk_mono c2 _ left hokL (poolShrink_markUsed _ _) (fun sv hsv => hsv)
  have hokR3 : ValueOk { c2 with regs := markUsed c2.regs result } right :=
    valueOk_mono c2 _ right hokR2 (poolShrink_markUsed _ _) (fun sv hsv => hsv)
  obtain ⟨hwf4, hst4, hlc4, hsh4⟩ := wf_into_reg _ _ _ _ _ hwf3 h7
  have hmem4 : ∀ sv ∈ c4.stack, sv ∈ ({ c2 with regs := markUsed c2.regs result } : Context).stack :=
    fun sv hsv => hst4 ▸ hsv
  have hokL4 : ValueOk c4 left := valueOk_mono _ _ _ hokL3 hsh4 hmem4
  have hokR4 : ValueOk c4 right := valueOk_mono _ _ _ hokR3 hsh4 hmem4
  have hokRes4 : ValueOk c4 (.Temp result) := valueOk_mono _ _ _ hokRes3 hsh4 hmem4
  have hne_left : ∀ r0 gv, left = Value.Temp r0 → Value.Temp result = Value.Temp gv →
      r0 ≠ gv := by
    intro r0 gv hw hv
    cases hv
    intro hcon
    subst hcon
    rw [hw] at hokL
    rw [hokL.1] at hb
    exact Bool.false_ne_true hb
  have hne_right : ∀ r0 gv, right = Value.Temp r0 → Value.Temp result = Value.Temp gv →
      r0 ≠ gv := by
    intro r0 gv hw hv
    cases hv
    intro hcon
    subst hcon
    rw [hw] at hokR2
    rw [hokR2.1] at hb
    exact Bool.false_ne_true hb
  obtain ⟨hwf5, hlc5, htrans5⟩ := wf_push_i32 _ _ _ _ hwf4 hokRes4 h9
  have hokL5 : ValueOk c5 left := htrans5 left hokL4 hne_left
  have hokR5 : ValueOk c5 right := htrans5 right hokR4 hne_right
  obtain ⟨hwf6, hst6, hlc6, htrans6⟩ := wf_free_val _ _ _ hwf5 hokL5 h11
  have hokR6 : ValueOk c6 right := htrans6 right hokR5 hdistRL
  exact (wf_free_val _ _ _ hwf6 hokR6 h13).1

end Backend

namespace Backend

theorem far_loop_locals (depth : Nat) (locs : List ValueLocation) :
    ∀ (i : Nat), (∀ loc ∈ locs, argRegOkB loc = true) →
    ∀ loc ∈ (free_arg_registers_loop depth locs i).1, argRegOkB loc = true := by
  induction locs with
  | nil =>
    intro i hall loc hl
    simp only [free_arg_registers_loop] at hl
    exact absurd hl (List.not_mem_nil _)
  | cons l rest ih =>
    intro i hall loc hl
    simp only [free_arg_registers_loop] at hl
    rcases hrec : free_arg_registers_loop depth rest (i + 1) with ⟨rest', insts⟩
    rw [hrec] at hl
    have hrest : ∀ loc ∈ rest', argRegOkB loc = true := by
      have := ih (i + 1) (fun x hx => hall x (List.mem_cons_of_mem _ hx))
      rw [hrec] at this
      exact this
    cases l with
    | Reg reg =>
      dsimp only at hl
      by_cases hin : reg ∈ ARGS_IN_GPRS
      · rw [if_pos hin] at hl
        dsimp only at hl
        rcases List.mem_cons.1 hl with rfl | hl
        · rfl
        · exact hrest loc hl
      · rw [if_neg hin] at hl
        dsimp only at hl
        rcases List.mem_cons.1 hl with rfl | hl
        · exact hall _ (List.mem_cons_self _ _)
        · exact hrest loc hl
    | Stack o =>
      dsimp only at hl
      rcases List.mem_cons.1 hl with rfl | hl
      · exact hall _ (List.mem_cons_self _ _)
      · exact hrest loc hl

theorem wf_free_arg_registers (c : Context) (count : Nat) (c' : Context)
    (insts : List Inst) (hwf : WF c)
    (h : free_arg_registers c count = (c', insts)) : WF c' := by
  unfold free_arg_registers at h
  by_cases h0 : count = 0
  · rw [if_pos h0] at h
    cases h
    exact hwf
  · rw [if_neg h0] at h
    rcases hrec : free_arg_registers_loop c.depth c.locals 0 with ⟨locs, insts2⟩
    rw [hrec] at h
    dsimp only at h
    cases h
    obtain ⟨hlt, hpool, htemps, hnodup, hlocals⟩ := hwf
    refine ⟨hlt, hpool, htemps, hnodup, ?_⟩
    have := far_loop_locals c.depth c.locals 0 hlocals
    rw [hrec] at this
    exact this

theorem wf_frr_loop (locals : List ValueLocation) (stack : List StackValue) :
    ∀ (regs regs' : Nat) (stack' : List StackValue) (insts : List Inst),
    regs < 65536 →
    (∀ g < 16, regs.testBit g = true → g ∈ raxOrScratch) →
    (∀ sv ∈ stack, tempOkB regs sv = true) →
    (tempRegs stack).Nodup →
    free_return_register_loop locals regs stack = .ok (regs', stack', insts) →
    regs' < 65536 ∧ PoolShrink regs regs' ∧
    (∀ g < 16, regs'.testBit g = true → g ∈ raxOrScratch) ∧
    (∀ sv ∈ stack', tempOkB regs' sv = true) ∧
    (tempRegs stack').Nodup ∧
    (∀ t ∈ tempRegs stack', t ∈ tempRegs stack ∨ regs.testBit t = true) := by
  induction stack with
  | nil =>
    intro regs regs' stack' insts hlt hpool htemps hnodup h
    simp only [free_return_register_loop] at h
    cases h
    refine ⟨hlt, poolShrink_refl _, hpool, ?_, ?_, ?_⟩
    · intro sv hsv
      exact absurd hsv (List.not_mem_nil _)
    · exact List.nodup_nil
    · intro t ht
      exact absurd ht (List.not_mem_nil _)
  | cons sv rest ih =>
    intro regs regs' stack' insts hlt hpool htemps hnodup h
    simp only [free_return_register_loop] at h
    obtain ⟨⟨regsM, restM, instsM⟩, h1, h2⟩ := except_bind_ok _ _ _ h
    dsimp only at h2
    have htemps_rest : ∀ s ∈ rest, tempOkB regs s = true :=
      fun s hs => htemps s (List.mem_cons_of_mem _ hs)
    have hnodup_rest : (tempRegs rest).Nodup := by
      cases sv with
      | Temp g =>
        rw [tempRegs_cons_temp] at hnodup
        exact (List.nodup_cons.1 hnodup).2
      | Local i =>
        rw [tempRegs_cons_local] at hnodup
        exact hnodup
      | Pop =>
        rw [tempRegs_cons_pop] at hnodup
        exact hnodup
    obtain ⟨hltM, hshM, hpoolM, htempsM, hnodupM, hprovM⟩ :=
      ih regs regsM restM instsM hlt hpool htemps_rest hnodup_rest h1
    cases sv with
    | Pop =>
      simp only [StackValue.location] at h2
      cases h2
      refine ⟨hltM, hshM, hpoolM, ?_, ?_, ?_⟩
      · intro s hs
        rcases List.mem_cons.1 hs with rfl | hs
        · rfl
        · exact htempsM s hs
      · rw [tempRegs_cons_pop]
        exact hnodupM
      · intro t ht
        rw [tempRegs_cons_pop] at ht
        rw [tempRegs_cons_pop]
        exact hprovM t ht
    | Local i =>
      simp only [StackValue.location] at h2
      cases hll : local_location locals i with
      | Stack o =>
        simp only [hll] at h2
        cases h2
        refine ⟨hltM, hshM, hpoolM, ?_, ?_, ?_⟩
        · intro s hs
          rcases List.mem_cons.1 hs with rfl | hs
          · rfl
          · exact htempsM s hs
        · rw [tempRegs_cons_local]
          exact hnodupM
        · intro t ht
          rw [tempRegs_cons_local] at ht
          rw [tempRegs_cons_local]
          exact hprovM t ht
      | Reg reg =>
        simp only [hll] at h2
        by_cases hrax : reg = RAX
        · rw [if_pos hrax] at h2
          obtain ⟨⟨scratch, regs2⟩, h3, h4⟩ := except_bind_ok _ _ _ h2
          dsimp only at h4
          cases h4
          obtain ⟨hlt2, hsh2, hpool2, hbt, hbset2, hbt'⟩ := takeBits_wf _ _ _ hltM hpoolM h3
          obtain ⟨hb0, hg16, hbits⟩ := takeBits_ok_spec _ _ _ h3
          subst hbits
          refine ⟨hlt2, poolShrink_trans hshM hsh2, hpool2, ?_, ?_, ?_⟩
          · intro s hs
            rcases List.mem_cons.1 hs with rfl | hs
            · exact (tempOkB_temp_iff _ _).2 ⟨hbt', hbset2⟩
            · exact tempOkB_of_shrink _ _ _ hsh2 (htempsM s hs)
          · rw [tempRegs_cons_temp]
            refine List.nodup_cons.2 ⟨fun hc => ?_, hnodupM⟩
            have := (tempOkB_temp_iff regsM scratch).1 (htempsM _ ((mem_tempRegs _ _).1 hc))
            rw [this.1] at hbt
            exact Bool.false_ne_true hbt
          · intro t ht
            rw [tempRegs_cons_temp] at ht
            rw [tempRegs_cons_local]
            rcases List.mem_cons.1 ht with rfl | ht
            · exact Or.inr (hshM _ hbt)
            · exact hprovM t ht
        · rw [if_neg hrax] at h2
          cases h2
          refine ⟨hltM, hshM, hpoolM, ?_, ?_, ?_⟩
          · intro s hs
            rcases List.mem_cons.1 hs with rfl | hs
            · rfl
            · exact htempsM s hs
          · rw [tempRegs_cons_local]
            exact hnodupM
          · intro t ht
            rw [tempRegs_cons_local] at ht
            rw [tempRegs_cons_local]
            exact hprovM t ht
    | Temp g =>
      simp only [StackValue.location] at h2
      by_cases hrax : g = RAX
      · rw [if_pos hrax] at h2
        obtain ⟨⟨scratch, regs2⟩, h3, h4⟩ := except_bind_ok _ _ _ h2
        dsimp only at h4
        cases h4
        obtain ⟨hlt2, hsh2, hpool2, hbt, hbset2, hbt'⟩ := takeBits_wf _ _ _ hltM hpoolM h3
        obtain ⟨hb0, hg16, hbits⟩ := takeBits_ok_spec _ _ _ h3
        subst hbits
        refine ⟨hlt2, poolShrink_trans hshM hsh2, hpool2, ?_, ?_, ?_⟩
        · intro s hs
          rcases List.mem_cons.1 hs with rfl | hs
          · exact (tempOkB_temp_iff _ _).2 ⟨hbt', hbset2⟩
          · exact tempOkB_of_shrink _ _ _ hsh2 (htempsM s hs)
        · rw [tempRegs_cons_temp]
          refine List.nodup_cons.2 ⟨fun hc => ?_, hnodupM⟩
          have := (tempOkB_temp_iff regsM scratch).1 (htempsM _ ((mem_tempRegs _ _).1 hc))
          rw [this.1] at hbt
          exact Bool.false_ne_true hbt
        · intro t ht
          rw [tempRegs_cons_temp] at ht
          rw [tempRegs_cons_temp]
          rcases List.mem_cons.1 ht with rfl | ht
          · exact Or.inr (hshM _ hbt)
          · rcases hprovM t ht with hin | hfree
            · exact Or.inl (List.mem_cons_of_mem _ hin)
            · exact Or.inr hfree
      · rw [if_neg hrax] at h2
        cases h2
        refine ⟨hltM, hshM, hpoolM, ?_, ?_, ?_⟩
        · intro s hs
          rcases List.mem_cons.1 hs with rfl | hs
          · exact tempOkB_of_shrink _ _ _ hshM (htemps _ (List.mem_cons_self _ _))
          · exact htempsM s hs
        · rw [tempRegs_cons_temp]
          refine List.nodup_cons.2 ⟨fun hc => ?_, hnodupM⟩
          rcases hprovM g hc with hin | hfree
          · rw [tempRegs_cons_temp] at hnodup
            exact (List.nodup_cons.1 hnodup).1 hin
          · have := (tempOkB_temp_iff regs g).1 (htemps _ (List.mem_cons_self _ _))
            rw [this.1] at hfree
            exact Bool.false_ne_true hfree
        · intro t ht
          rw [tempRegs_cons_temp] at ht
          rw [tempRegs_cons_temp]
          rcases List.mem_cons.1 ht with rfl | ht
          · exact Or.inl (List.mem_cons_self _ _)
          · rcases hprovM t ht with hin | hfree
            · exact Or.inl (List.mem_cons_of_mem _ hin)
            · exact Or.inr hfree

theorem wf_free_return_register (c : Context) (count : Nat) (c' : Context)
    (insts : List Inst) (hwf : WF c)
    (h : free_return_register c count = .ok (c', insts)) : WF c' := by
  unfold free_return_register at h
  by_cases h0 : count = 0
  · rw [if_pos h0] at h
    cases h
    exact hwf
  · rw [if_neg h0] at h
    obtain ⟨⟨regs2, stack2, insts2⟩, h1, h2⟩ := except_bind_ok _ _ _ h
    dsimp only at h2
    cases h2
    obtain ⟨hlt, hpool, htemps, hnodup, hlocals⟩ := hwf
    obtain ⟨hlt2, _, hpool2, htemps2, hnodup2, _⟩ :=
      wf_frr_loop c.locals c.stack c.regs regs2 stack2 insts hlt hpool htemps hnodup h1
    exact ⟨hlt2, hpool2, htemps2, hnodup2, hlocals⟩

end Backend

namespace Backend

theorem wf_pass_stack_args (slots : List Nat) :
    ∀ (c c' : Context) (insts : List Inst), WF c →
    pass_stack_args c slots = .ok (c', insts) → WF c' ∧ c'.locals = c.locals := by
  induction slots with
  | nil =>
    intro c c' insts hwf h
    simp only [pass_stack_args] at h
    cases h
    exact ⟨hwf, rfl⟩
  | cons slot rest ih =>
    intro c c' insts hwf h
    simp only [pass_stack_args] at h
    obtain ⟨⟨c1, is0⟩, h1, h2⟩ := except_bind_ok _ _ _ h
    dsimp only at h2
    obtain ⟨⟨c2, is1⟩, h3, h4⟩ := except_bind_ok _ _ _ h2
    cases h4
    obtain ⟨hwf1, hl1⟩ := wf_pop_i32_into _ _ _ _ hwf h1
    obtain ⟨hwf2, hl2⟩ := ih _ _ _ hwf1 h3
    exact ⟨hwf2, by rw [hl2, hl1]⟩

theorem wf_pass_reg_args (regsL : List GPR) :
    ∀ (c c' : Context) (insts : List Inst), WF c →
    pass_reg_args c regsL = .ok (c', insts) → WF c' ∧ c'.locals = c.locals := by
  induction regsL with
  | nil =>
    intro c c' insts hwf h
    simp only [pass_reg_args] at h
    cases h
    exact ⟨hwf, rfl⟩
  | cons reg rest ih =>
    intro c c' insts hwf h
    simp only [pass_reg_args] at h
    obtain ⟨⟨c1, is0⟩, h1, h2⟩ := except_bind_ok _ _ _ h
    dsimp only at h2
    obtain ⟨⟨c2, is1⟩, h3, h4⟩ := except_bind_ok _ _ _ h2
    cases h4
    obtain ⟨hwf1, hl1⟩ := wf_pop_i32_into _ _ _ _ hwf h1
    obtain ⟨hwf2, hl2⟩ := ih _ _ _ hwf1 h3
    exact ⟨hwf2, by rw [hl2, hl1]⟩

theorem wf_pass_outgoing_args (c : Context) (arity : Nat) (cl : CallCleanup)
    (c' : Context) (insts : List Inst) (hwf : WF c)
    (h : pass_outgoing_args c arity = .ok (cl, c', insts)) :
    WF c' ∧ c'.locals = c.locals := by
  unfold pass_outgoing_args at h
  rcases hsv : save_volatile c with ⟨saved, saveInsts⟩
  rw [hsv] at h
  dsimp only at h
  by_cases hn : arity - ARGS_IN_GPRS.length > 0
  · rw [if_pos hn] at h
    obtain ⟨⟨ca, isa⟩, h1, h2⟩ := except_bind_ok _ _ _ h
    rw [pure_bind] at h2
    dsimp only at h2
    obtain ⟨⟨cb, regInsts⟩, h3, h4⟩ := except_bind_ok _ _ _ h2
    cases h4
    have hwfd : WF { c with depth := c.depth + (arity - ARGS_IN_GPRS.length) } := by
      obtain ⟨a, b2, c2, d, e⟩ := hwf
      exact ⟨a, b2, c2, d, e⟩
    obtain ⟨hwfa, hla⟩ := wf_pass_stack_args _ _ _ _ hwfd h1
    obtain ⟨hwfb, hlb⟩ := wf_pass_reg_args _ _ _ _ hwfa h3
    exact ⟨hwfb, by rw [hlb, hla]⟩
  · rw [if_neg hn] at h
    rw [pure_bind] at h
    dsimp only at h
    obtain ⟨⟨cb, regInsts⟩, h3, h4⟩ := except_bind_ok _ _ _ h
    cases h4
    exact wf_pass_reg_args _ _ _ _ hwf h3

theorem wf_call_direct (c : Context) (index arg_arity return_arity : Nat)
    (c' : Context) (insts : List Inst) (hwf : WF c)
    (h : call_direct c index arg_arity return_arity = .ok (c', insts)) : WF c' := by
  unfold call_direct at h
  by_cases hra : return_arity = 0 ∨ return_arity = 1
  · rw [if_pos hra] at h
    rcases hfar : free_arg_registers c arg_arity with ⟨c1, farInsts⟩
    rw [hfar] at h
    dsimp only at h
    obtain ⟨⟨c2, frrInsts⟩, h1, h2⟩ := except_bind_ok _ _ _ h
    dsimp only at h2
    obtain ⟨⟨cln, c3, poaInsts⟩, h3, h4⟩ := except_bind_ok _ _ _ h2
    dsimp only at h4
    cases hgi : c3.funcStarts.get? index with
    | none =>
      rw [hgi] at h4
      exact absurd h4 (by simp)
    | some label =>
      rw [hgi] at h4
      dsimp only [post_call_cleanup] at h4
      cases h4
      have hwf1 : WF c1 := wf_free_arg_registers _ _ _ _ hwf hfar
      have hwf2 : WF c2 := wf_free_return_register _ _ _ _ hwf1 h1
      exact (wf_pass_outgoing_args _ _ _ _ _ hwf2 h3).1
  · rw [if_neg hra] at h
    exact absurd h (by simp)

theorem wf_stepOp (c : Context) (op : EmitOp) (c' : Context) (insts : List Inst)
    (hwf : WF c) (h : stepOp c op = .ok (c', insts)) : WF c' := by
  cases op with
  | literal imm => exact wf_literal_i32 _ _ _ _ hwf h
  | add => exact wf_i32_binop _ _ _ _ _ hwf h
  | sub => exact wf_i32_binop _ _ _ _ _ hwf h
  | and => exact wf_i32_binop _ _ _ _ _ hwf h
  | or => exact wf_i32_binop _ _ _ _ _ hwf h
  | xor => exact wf_i32_binop _ _ _ _ _ hwf h
  | mul => exact wf_i32_binop _ _ _ _ _ hwf h
  | relopEq => exact wf_relop_eq_i32 _ _ _ hwf h
  | getLocal k => exact wf_get_local_i32 _ _ _ _ hwf h
  | setLocal k => exact wf_set_local_i32 _ _ _ _ hwf h
  | popDiscard =>
    simp only [stepOp] at h
    obtain ⟨⟨v, c1, is⟩, h1, h2⟩ := except_bind_ok _ _ _ h
    dsimp only at h2
    cases h2
    exact (wf_pop_i32 _ _ _ _ hwf h1).1
  | callDirect i a r => exact wf_call_direct _ _ _ _ _ _ hwf h

theorem wf_runOps (ops : List EmitOp) :
    ∀ (c c' : Context), WF c → runOps c ops = .ok c' → WF c' := by
  induction ops with
  | nil =>
    intro c c' hwf h
    simp only [runOps] at h
    cases h
    exact hwf
  | cons op rest ih =>
    intro c c' hwf h
    simp only [runOps] at h
    obtain ⟨⟨c1, is⟩, h1, h2⟩ := except_bind_ok _ _ _ h
    dsimp only at h2
    exact ih _ _ (wf_stepOp _ _ _ _ hwf h1) h2

theorem stackNoFreeGpr_of_wf (c : Context) (hwf : WF c) : stackNoFreeGpr c := by
  obtain ⟨hlt, hpool, htemps, hnodup, hlocals⟩ := hwf
  constructor
  · intro g hg
    have := (tempOkB_temp_iff c.regs g).1 (htemps _ hg)
    rw [isFreeBits_eq_testBit]
    exact this.1
  · intro g hfree sv hsv hloc
    rw [isFreeBits_eq_testBit] at hfree
    cases sv with
    | Pop =>
      simp only [StackValue.location] at hloc
      exact Option.noConfusion hloc
    | Temp r =>
      simp only [StackValue.location, Option.some.injEq, ValueLocation.Reg.injEq] at hloc
      subst hloc
      have := (tempOkB_temp_iff c.regs r).1 (htemps _ hsv)
      rw [this.1] at hfree
      exact Bool.false_ne_true hfree
    | Local i =>
      simp only [StackValue.location, Option.some.injEq] at hloc
      have hg16 : g < 16 := by
        rcases Nat.lt_or_ge g 16 with hcase | hcase
        · exact hcase
        · rw [testBit_of_ge_16 c.regs g hlt hcase] at hfree
          exact absurd hfree (by simp)
      have hset := hpool g hg16 hfree
      unfold local_location at hloc
      cases hget : c.locals.get? i with
      | none =>
        rw [hget] at hloc
        cases hloc
      | some loc =>
        rw [hget] at hloc
        subst hloc
        have hok := hlocals _ (List.get?_mem hget)
        simp only [argRegOkB, decide_eq_true_eq] at hok
        have h1 : g = 7 ∨ g = 6 ∨ g = 2 ∨ g = 1 ∨ g = 8 ∨ g = 9 := by
          simpa [ARGS_IN_GPRS, RDI, RSI, RDX, RCX, R8, R9] using hok
        have h2 : g = 0 ∨ g = 10 ∨ g = 11 := by
          simpa [raxOrScratch, RAX, R10, R11] using hset
        rcases h2 with rfl | rfl | rfl <;> exact absurd h1 (by decide)

end Backend

namespace Backend

/-- C1: for every sequence of backend emission primitives (push_i32, pop_i32,
literal_i32, the i32 binops, relop_eq_i32, get_local_i32, set_local_i32,
call_direct) applied to a well-formed context, the register-pool invariant is
preserved: every GPR referenced by a Temp entry on the abstract operand stack
is marked taken in the register pool, and every GPR that is free in the pool is
not referenced by any live stack entry.  Well-formedness (WF) is the inductive
strengthening of that invariant which the emission primitives actually
maintain; push_i32 additionally requires that the in-flight value being pushed
owns its register (ValueOk), which is exactly what pop_i32 guarantees for the
value it returns. -/
theorem c1_register_pool_invariant (c : Context) (hwf : WF c) :
    stackNoFreeGpr c ∧
    (∀ (v : Value) (c' : Context) (insts : List Inst), ValueOk c v →
      push_i32 c v = .ok (c', insts) → WF c' ∧ stackNoFreeGpr c') ∧
    (∀ (v : Value) (c' : Context) (insts : List Inst),
      pop_i32 c = .ok (v, c', insts) → WF c' ∧ ValueOk c' v ∧ stackNoFreeGpr c') ∧
    (∀ (ops : List EmitOp) (c' : Context), runOps c ops = .ok c' →
      WF c' ∧ stackNoFreeGpr c') := by
  refine ⟨stackNoFreeGpr_of_wf c hwf, ?_, ?_, ?_⟩
  · intro v c' insts hok h
    have hwf' := (wf_push_i32 _ _ _ _ hwf hok h).1
    exact ⟨hwf', stackNoFreeGpr_of_wf _ hwf'⟩
  · intro v c' insts h
    obtain ⟨hwf', hok', _⟩ := wf_pop_i32 _ _ _ _ hwf h
    exact ⟨hwf', hok', stackNoFreeGpr_of_wf _ hwf'⟩
  · intro ops c' h
    have hwf' := wf_runOps ops c c' hwf h
    exact ⟨hwf', stackNoFreeGpr_of_wf _ hwf'⟩

/-- Witness for C1: a concrete well-formed context (fresh scratch pool, one
local in RDI) run through the sequence literal 5; get_local 0; add;
set_local 0 lands back in a context satisfying the invariant. -/
theorem c1_witness :
    WF ⟨3072, [], [ValueLocation.Reg RDI], 0, [0]⟩ ∧
    (WF ⟨3072, [], [ValueLocation.Reg RDI], 0, [0]⟩ ∧
      stackNoFreeGpr ⟨3072, [], [ValueLocation.Reg RDI], 0, [0]⟩) :=
  have hwf : WF ⟨3072, [], [ValueLocation.Reg RDI], 0, [0]⟩ :=
    ⟨by decide, by decide, by decide, by decide, by decide⟩
  ⟨hwf,
    (c1_register_pool_invariant ⟨3072, [], [ValueLocation.Reg RDI], 0, [0]⟩ hwf).2.2.2
      [EmitOp.literal 5, EmitOp.getLocal 0, EmitOp.add, EmitOp.setLocal 0]
      ⟨3072, [], [ValueLocation.Reg RDI], 0, [0]⟩ (by decide)⟩

end Backend
